import Mathlib

/-!
A verification development for the databricks-sql-formatter core: a shallow
embedding of the tokenizer (`src/parser/tokenizer.ts`), the keyword-merge
passes and the format engine (`src/formatter/formatter.ts`), together with
theorems about the behaviour of these functions.

Text is modelled as `List Char`.  JavaScript strings are UTF-16, but every
construct the formatter manipulates is character-based, so a character list
is a faithful model.  Machine integers do not occur (the only counter,
`indentLevel`, is a JS number used at small magnitudes; it is modelled as
`Int` so that non-negativity is a real statement, not a typing artifact).

The keyword tables live in `src/parser/keywords.ts`, which is not part of
the sources available here; they are modelled from the spec (see
`KEYWORDS` and `CLAUSE_KEYWORDS` below).
-/

namespace DbxFmt

/-- Characters that are awkward to write literally are named here. -/
def quoteC : Char := Char.ofNat 39

def dquoteC : Char := Char.ofNat 34

def backquoteC : Char := Char.ofNat 96

def obraceC : Char := Char.ofNat 123

def cbraceC : Char := Char.ofNat 125

/-- `TokenType` from `src/parser/tokens.ts`. -/
inductive TokenType where
  | Keyword | Identifier | Number | String | Operator
  | Comma | OpenParen | CloseParen | Semicolon | Dot
  | Whitespace | Comment | BlockComment | Newline
  | Backtick | Parameter | DollarQuotedString | EOF
deriving DecidableEq, Repr

/-- `Token` from `src/parser/tokens.ts`: `value` is the token text,
`original` optionally preserves the original casing (keywords). -/
structure Token where
  type : TokenType
  value : List Char
  original : Option (List Char) := none
deriving DecidableEq, Repr

/-- The text a token stands for in the input: original casing when captured,
otherwise the token value. -/
def Token.origValue (t : Token) : List Char := t.original.getD t.value

/-- space or tab, the characters of the tokenizer's whitespace run rule. -/
def isSpaceTab (c : Char) : Bool := c = ' ' || c = '\t'

/-- digit or dot, the character class of the tokenizer's number run. -/
def isNumChar (c : Char) : Bool := c.isDigit || c = '.'

/-- word characters `[a-zA-Z0-9_]`. -/
def isWordChar (c : Char) : Bool := c.isAlpha || c.isDigit || c = '_'

/-- Modelled from the spec: `src/parser/keywords.ts` is not among the
available sources.  The spec (§2, §4.1 rule 16) describes a fixed table of
recognized keywords; its membership is reconstructed from the keywords the
spec and the repository's test expectations exercise. -/
def KEYWORDS : List (List Char) :=
  [ "SELECT", "FROM", "WHERE", "GROUP", "ORDER", "BY", "HAVING", "LIMIT",
    "JOIN", "INNER", "LEFT", "RIGHT", "FULL", "OUTER", "CROSS", "SEMI",
    "ANTI", "ON", "USING", "AS", "AND", "OR", "NOT", "IN", "IS", "NULL",
    "LIKE", "BETWEEN", "EXISTS", "CASE", "WHEN", "THEN", "ELSE", "END",
    "DISTINCT", "ALL", "UNION", "INSERT", "INTO", "OVERWRITE", "VALUES",
    "UPDATE", "SET", "DELETE", "MERGE", "MATCHED", "CREATE", "ALTER",
    "DROP", "TABLE", "VIEW", "FUNCTION", "RETURNS", "RETURN", "COMMENT",
    "TBLPROPERTIES", "IF", "REPLACE", "USE", "CATALOG", "SCHEMA", "WITH",
    "OPTIMIZE", "ZORDER", "VACUUM", "CLUSTER", "DISTRIBUTE", "SORT",
    "PARTITION", "OVER", "LATERAL", "LANGUAGE", "METRICS", "IDENTIFIER",
    "INT", "STRING", "DOUBLE", "TIMESTAMP", "CAST", "COUNT", "SUM", "AVG",
    "MIN", "MAX", "COALESCE", "CONCAT", "CONCAT_WS", "ROW_NUMBER", "LAG",
    "LEAD", "MD5", "IFNULL", "DESC", "ASC" ].map String.data

/-- Scan up to and including a single closing delimiter `stop`; if the input
ends first, everything is consumed and no delimiter is added (the tokenizer's
double-quote, back-quote and close-brace loops). -/
def scanDelim (stop : Char) (l : List Char) : List Char × List Char :=
  let a := l.takeWhile (fun c => c != stop)
  match l.dropWhile (fun c => c != stop) with
  | [] => (a, [])
  | s :: t => (a ++ [s], t)

/-- Scan up to and including the two-character terminator `x y`; if the input
ends first, everything is consumed (block comment, dollar-dollar and
double-brace loops of the tokenizer). -/
def scanUntil2 (x y : Char) : List Char → List Char × List Char
  | [] => ([], [])
  | [a] => ([a], [])
  | a :: b :: t =>
    if a = x ∧ b = y then ([x, y], t)
    else
      let r := scanUntil2 x y (b :: t)
      (a :: r.1, r.2)

/-- Scan the body of a single-quoted string after the opening quote: a doubled
quote is kept as two characters, a single quote closes, end of input closes
implicitly. -/
def scanStr : List Char → List Char × List Char
  | [] => ([], [])
  | [a] => if a = quoteC then ([quoteC], []) else ([a], [])
  | a :: b :: t =>
    if a = quoteC ∧ b = quoteC then
      let r := scanStr t
      (quoteC :: quoteC :: r.1, r.2)
    else if a = quoteC then ([quoteC], b :: t)
    else
      let r := scanStr (b :: t)
      (a :: r.1, r.2)

/-- The scientific-notation suffix of the number rule: `e`/`E`, optional sign,
then a digit run. Returns the consumed suffix and the rest. -/
def scanSci : List Char → List Char × List Char
  | [] => ([], [])
  | e :: r =>
    if e = 'e' ∨ e = 'E' then
      match r with
      | s :: t =>
        if s = '+' ∨ s = '-' then
          (e :: s :: t.takeWhile Char.isDigit, t.dropWhile Char.isDigit)
        else
          (e :: (s :: t).takeWhile Char.isDigit, (s :: t).dropWhile Char.isDigit)
      | [] => ([e], [])
    else ([], e :: r)

/-- The two-character operator table of the tokenizer. -/
def isTwoCharOp (c d : Char) : Bool :=
  (c = '!' && d = '=') || (c = '<' && d = '>') || (c = '>' && d = '=') ||
  (c = '<' && d = '=') || (c = '|' && d = '|') || (c = '-' && d = '>')

/-- The single-character operator table of the tokenizer. -/
def singleOps : List Char :=
  ['+', '-', '*', '/', '%', '=', '<', '>', '|', '&', '^', '~', '!']

/-- The word rule of the tokenizer: a scanned word becomes a Keyword token
(upper-cased value, original casing kept) when its upper-casing is in the
keyword table, otherwise an Identifier token. -/
def mkWordToken (word : List Char) : Token :=
  if KEYWORDS.contains (word.map Char.toUpper) then
    ⟨.Keyword, word.map Char.toUpper, some word⟩
  else ⟨.Identifier, word, none⟩

/-- One step of the tokenizer: the current character `c` and the remaining
input `rest`.  Branches appear in the priority order of
`src/parser/tokenizer.ts` (`tokenize`, lines 8–227). -/
def nextToken (c : Char) (rest : List Char) : Token × List Char :=
  -- Whitespace (not newlines)
  if isSpaceTab c then
    (⟨.Whitespace, c :: rest.takeWhile isSpaceTab, none⟩, rest.dropWhile isSpaceTab)
  -- Newlines (CRLF as one token)
  else if c = '\r' ∧ rest.head? = some '\n' then
    (⟨.Newline, ['\r', '\n'], none⟩, rest.tail)
  else if c = '\n' ∨ c = '\r' then
    (⟨.Newline, [c], none⟩, rest)
  -- Line comment
  else if c = '-' ∧ rest.head? = some '-' then
    (⟨.Comment, (c :: rest).takeWhile (fun x => x != '\n'), none⟩,
      (c :: rest).dropWhile (fun x => x != '\n'))
  -- Block comment
  else if c = '/' ∧ rest.head? = some '*' then
    let r := scanUntil2 '*' '/' rest.tail
    (⟨.BlockComment, '/' :: '*' :: r.1, none⟩, r.2)
  -- Single-quoted string
  else if c = quoteC then
    let r := scanStr rest
    (⟨.String, quoteC :: r.1, none⟩, r.2)
  -- Double-quoted identifier
  else if c = dquoteC then
    let r := scanDelim dquoteC rest
    (⟨.Identifier, dquoteC :: r.1, none⟩, r.2)
  -- Back-quoted identifier
  else if c = backquoteC then
    let r := scanDelim backquoteC rest
    (⟨.Backtick, backquoteC :: r.1, none⟩, r.2)
  -- Numbers
  else if c.isDigit ∨ (c = '.' ∧ (rest.head?.map Char.isDigit).getD false) then
    let core := (c :: rest).takeWhile isNumChar
    let r1 := (c :: rest).dropWhile isNumChar
    let sci := scanSci r1
    (⟨.Number, core ++ sci.1, none⟩, sci.2)
  -- Symbols
  else if c = '(' then (⟨.OpenParen, ['('], none⟩, rest)
  else if c = ')' then (⟨.CloseParen, [')'], none⟩, rest)
  else if c = ',' then (⟨.Comma, [','], none⟩, rest)
  else if c = ';' then (⟨.Semicolon, [';'], none⟩, rest)
  else if c = '.' then (⟨.Dot, ['.'], none⟩, rest)
  -- Two-character operators
  else if (rest.head?.map (isTwoCharOp c)).getD false then
    (⟨.Operator, c :: rest.take 1, none⟩, rest.tail)
  -- Single-character operators
  else if singleOps.contains c then
    (⟨.Operator, [c], none⟩, rest)
  -- Dollar-quoted string
  else if c = '$' ∧ rest.head? = some '$' then
    let r := scanUntil2 '$' '$' rest.tail
    (⟨.DollarQuotedString, '$' :: '$' :: r.1, none⟩, r.2)
  -- Template parameter placeholder
  else if c = '$' ∧ rest.head? = some obraceC then
    let r := scanDelim cbraceC rest.tail
    (⟨.Parameter, '$' :: obraceC :: r.1, none⟩, r.2)
  -- Double-brace template parameter
  else if c = obraceC ∧ rest.head? = some obraceC then
    let r := scanUntil2 cbraceC cbraceC rest.tail
    (⟨.Parameter, obraceC :: obraceC :: r.1, none⟩, r.2)
  -- Parameter markers
  else if c = ':' ∨ c = '@' then
    (⟨.Parameter, c :: rest.takeWhile isWordChar, none⟩, rest.dropWhile isWordChar)
  -- Words (keywords or identifiers)
  else if c.isAlpha ∨ c = '_' then
    (mkWordToken (c :: rest.takeWhile isWordChar), rest.dropWhile isWordChar)
  -- Fallback: any other single character is an operator
  else
    (⟨.Operator, [c], none⟩, rest)

theorem append_eq_snd_le {α : Type} {a b l : List α} (h : a ++ b = l) :
    b.length ≤ l.length := by
  subst h; simp

theorem scanDelim_append (stop : Char) (l : List Char) :
    (scanDelim stop l).1 ++ (scanDelim stop l).2 = l := by
  have h := List.takeWhile_append_dropWhile (p := fun c => c != stop) (l := l)
  cases hd : l.dropWhile (fun c => c != stop) with
  | nil => rw [hd] at h; simp only [scanDelim, hd]; simpa using h
  | cons s t => rw [hd] at h; simp only [scanDelim, hd]; simpa using h

theorem scanUntil2_append (x y : Char) (l : List Char) :
    (scanUntil2 x y l).1 ++ (scanUntil2 x y l).2 = l := by
  induction l with
  | nil => simp [scanUntil2]
  | cons a l ih =>
    cases l with
    | nil => simp [scanUntil2]
    | cons b t =>
      by_cases hab : a = x ∧ b = y
      · simp [scanUntil2, hab, hab.1, hab.2]
      · simp only [scanUntil2, if_neg hab, List.cons_append, List.cons.injEq, true_and]
        exact ih

theorem scanStr_append (l : List Char) :
    (scanStr l).1 ++ (scanStr l).2 = l := by
  induction l using scanStr.induct <;> simp_all [scanStr]

theorem scanSci_append (l : List Char) :
    (scanSci l).1 ++ (scanSci l).2 = l := by
  unfold scanSci
  cases l with
  | nil => simp
  | cons e r =>
    by_cases he : e = 'e' ∨ e = 'E'
    · simp only [if_pos he]
      cases r with
      | nil => simp
      | cons s t =>
        by_cases hs : s = '+' ∨ s = '-'
        · simpa [hs] using List.takeWhile_append_dropWhile (p := Char.isDigit) (l := t)
        · simpa [hs] using
            List.takeWhile_append_dropWhile (p := Char.isDigit) (l := s :: t)
    · simp [he]

/-- Each tokenizer step consumes exactly the characters it reports: the
original text of the produced token, followed by the remaining input,
is the input (`origValue` is `original` when captured, else `value`). -/
theorem mkWordToken_origValue (w : List Char) :
    (mkWordToken w).origValue = w := by
  unfold mkWordToken
  by_cases h : KEYWORDS.contains (w.map Char.toUpper) = true
  · rw [if_pos h]; rfl
  · rw [if_neg h]; rfl

theorem nextToken_origValue_append (c : Char) (rest : List Char) :
    (nextToken c rest).1.origValue ++ (nextToken c rest).2 = c :: rest := by
  unfold nextToken
  by_cases h1 : isSpaceTab c = true
  · rw [if_pos h1]
    simpa [Token.origValue] using
      List.takeWhile_append_dropWhile (p := isSpaceTab) (l := rest)
  rw [if_neg h1]
  by_cases h2 : c = '\r' ∧ rest.head? = some '\n'
  · rw [if_pos h2]
    obtain ⟨hc, hh⟩ := h2
    cases rest with
    | nil => simp at hh
    | cons a t =>
      simp only [List.head?_cons, Option.some.injEq] at hh
      subst hh
      simp [Token.origValue, hc]
  rw [if_neg h2]
  by_cases h3 : c = '\n' ∨ c = '\r'
  · rw [if_pos h3]; simp [Token.origValue]
  rw [if_neg h3]
  by_cases h4 : c = '-' ∧ rest.head? = some '-'
  · rw [if_pos h4]
    simpa [Token.origValue] using
      List.takeWhile_append_dropWhile (p := fun x => x != '\n') (l := c :: rest)
  rw [if_neg h4]
  by_cases h5 : c = '/' ∧ rest.head? = some '*'
  · rw [if_pos h5]
    obtain ⟨hc, hh⟩ := h5
    cases rest with
    | nil => simp at hh
    | cons a t =>
      simp only [List.head?_cons, Option.some.injEq] at hh
      subst hh
      simp [Token.origValue, hc, scanUntil2_append]
  rw [if_neg h5]
  by_cases h6 : c = quoteC
  · rw [if_pos h6]; simp [Token.origValue, h6, scanStr_append]
  rw [if_neg h6]
  by_cases h7 : c = dquoteC
  · rw [if_pos h7]; simp [Token.origValue, h7, scanDelim_append]
  rw [if_neg h7]
  by_cases h8 : c = backquoteC
  · rw [if_pos h8]; simp [Token.origValue, h8, scanDelim_append]
  rw [if_neg h8]
  by_cases h9 : c.isDigit = true ∨ (c = '.' ∧ (rest.head?.map Char.isDigit).getD false = true)
  · rw [if_pos h9]
    have h1' := List.takeWhile_append_dropWhile (p := isNumChar) (l := c :: rest)
    have h2' := scanSci_append ((c :: rest).dropWhile isNumChar)
    simp only [Token.origValue, Option.getD]
    rw [List.append_assoc, h2', h1']
  rw [if_neg h9]
  by_cases h10 : c = '('
  · rw [if_pos h10]; simp [Token.origValue, h10]
  rw [if_neg h10]
  by_cases h11 : c = ')'
  · rw [if_pos h11]; simp [Token.origValue, h11]
  rw [if_neg h11]
  by_cases h12 : c = ','
  · rw [if_pos h12]; simp [Token.origValue, h12]
  rw [if_neg h12]
  by_cases h13 : c = ';'
  · rw [if_pos h13]; simp [Token.origValue, h13]
  rw [if_neg h13]
  by_cases h14 : c = '.'
  · rw [if_pos h14]; simp [Token.origValue, h14]
  rw [if_neg h14]
  by_cases h15 : (rest.head?.map (isTwoCharOp c)).getD false = true
  · rw [if_pos h15]
    cases rest with
    | nil => simp at h15
    | cons a t => simp [Token.origValue]
  rw [if_neg h15]
  by_cases h16 : singleOps.contains c = true
  · rw [if_pos h16]; simp [Token.origValue]
  rw [if_neg h16]
  by_cases h17 : c = '$' ∧ rest.head? = some '$'
  · rw [if_pos h17]
    obtain ⟨hc, hh⟩ := h17
    cases rest with
    | nil => simp at hh
    | cons a t =>
      simp only [List.head?_cons, Option.some.injEq] at hh
      subst hh
      simp [Token.origValue, hc, scanUntil2_append]
  rw [if_neg h17]
  by_cases h18 : c = '$' ∧ rest.head? = some obraceC
  · rw [if_pos h18]
    obtain ⟨hc, hh⟩ := h18
    cases rest with
    | nil => simp at hh
    | cons a t =>
      simp only [List.head?_cons, Option.some.injEq] at hh
      subst hh
      simp [Token.origValue, hc, scanDelim_append]
  rw [if_neg h18]
  by_cases h19 : c = obraceC ∧ rest.head? = some obraceC
  · rw [if_pos h19]
    obtain ⟨hc, hh⟩ := h19
    cases rest with
    | nil => simp at hh
    | cons a t =>
      simp only [List.head?_cons, Option.some.injEq] at hh
      subst hh
      simp [Token.origValue, hc, scanUntil2_append]
  rw [if_neg h19]
  by_cases h20 : c = ':' ∨ c = '@'
  · rw [if_pos h20]
    simpa [Token.origValue] using
      List.takeWhile_append_dropWhile (p := isWordChar) (l := rest)
  rw [if_neg h20]
  by_cases h21 : c.isAlpha = true ∨ c = '_'
  · rw [if_pos h21]
    simpa [mkWordToken_origValue] using
      List.takeWhile_append_dropWhile (p := isWordChar) (l := rest)
  rw [if_neg h21]
  simp [Token.origValue]

theorem length_dropWhile_le' (p : Char → Bool) (l : List Char) :
    (l.dropWhile p).length ≤ l.length :=
  append_eq_snd_le (List.takeWhile_append_dropWhile (p := p) (l := l))

theorem scanUntil2_snd_le (x y : Char) (l : List Char) :
    (scanUntil2 x y l).2.length ≤ l.length :=
  append_eq_snd_le (scanUntil2_append x y l)

theorem scanStr_snd_le (l : List Char) :
    (scanStr l).2.length ≤ l.length :=
  append_eq_snd_le (scanStr_append l)

theorem scanDelim_snd_le (stop : Char) (l : List Char) :
    (scanDelim stop l).2.length ≤ l.length :=
  append_eq_snd_le (scanDelim_append stop l)

theorem scanSci_snd_le (l : List Char) :
    (scanSci l).2.length ≤ l.length :=
  append_eq_snd_le (scanSci_append l)

theorem length_tail_le {α : Type} (l : List α) : l.tail.length ≤ l.length := by
  cases l <;> simp

/-- The remaining input never grows at a tokenizer step. -/
theorem nextToken_rest_le (c : Char) (rest : List Char) :
    ((nextToken c rest).2).length ≤ rest.length := by
  unfold nextToken
  by_cases h1 : isSpaceTab c = true
  · rw [if_pos h1]; exact length_dropWhile_le' _ _
  rw [if_neg h1]
  by_cases h2 : c = '\r' ∧ rest.head? = some '\n'
  · rw [if_pos h2]; exact length_tail_le rest
  rw [if_neg h2]
  by_cases h3 : c = '\n' ∨ c = '\r'
  · rw [if_pos h3]
  rw [if_neg h3]
  by_cases h4 : c = '-' ∧ rest.head? = some '-'
  · rw [if_pos h4]
    have hc : (c != '\n') = true := by
      simp only [bne_iff_ne, ne_eq]
      intro hcn; exact h3 (Or.inl hcn)
    show (List.dropWhile (fun x => x != '\n') (c :: rest)).length ≤ rest.length
    rw [List.dropWhile_cons, if_pos hc]
    exact length_dropWhile_le' _ _
  rw [if_neg h4]
  by_cases h5 : c = '/' ∧ rest.head? = some '*'
  · rw [if_pos h5]; exact le_trans (scanUntil2_snd_le _ _ _) (length_tail_le rest)
  rw [if_neg h5]
  by_cases h6 : c = quoteC
  · rw [if_pos h6]; exact scanStr_snd_le rest
  rw [if_neg h6]
  by_cases h7 : c = dquoteC
  · rw [if_pos h7]; exact scanDelim_snd_le _ rest
  rw [if_neg h7]
  by_cases h8 : c = backquoteC
  · rw [if_pos h8]; exact scanDelim_snd_le _ rest
  rw [if_neg h8]
  by_cases h9 : c.isDigit = true ∨ (c = '.' ∧ (rest.head?.map Char.isDigit).getD false = true)
  · rw [if_pos h9]
    have hc : isNumChar c = true := by
      rcases h9 with hd | ⟨hdot, _⟩
      · simp [isNumChar, hd]
      · simp [isNumChar, hdot]
    have hd2 : ((c :: rest).dropWhile isNumChar).length ≤ rest.length := by
      rw [List.dropWhile_cons_of_pos hc]; exact length_dropWhile_le' _ _
    exact le_trans (scanSci_snd_le _) hd2
  rw [if_neg h9]
  by_cases h10 : c = '('
  · rw [if_pos h10]
  rw [if_neg h10]
  by_cases h11 : c = ')'
  · rw [if_pos h11]
  rw [if_neg h11]
  by_cases h12 : c = ','
  · rw [if_pos h12]
  rw [if_neg h12]
  by_cases h13 : c = ';'
  · rw [if_pos h13]
  rw [if_neg h13]
  by_cases h14 : c = '.'
  · rw [if_pos h14]
  rw [if_neg h14]
  by_cases h15 : (rest.head?.map (isTwoCharOp c)).getD false = true
  · rw [if_pos h15]; exact length_tail_le rest
  rw [if_neg h15]
  by_cases h16 : singleOps.contains c = true
  · rw [if_pos h16]
  rw [if_neg h16]
  by_cases h17 : c = '$' ∧ rest.head? = some '$'
  · rw [if_pos h17]; exact le_trans (scanUntil2_snd_le _ _ _) (length_tail_le rest)
  rw [if_neg h17]
  by_cases h18 : c = '$' ∧ rest.head? = some obraceC
  · rw [if_pos h18]; exact le_trans (scanDelim_snd_le _ _) (length_tail_le rest)
  rw [if_neg h18]
  by_cases h19 : c = obraceC ∧ rest.head? = some obraceC
  · rw [if_pos h19]; exact le_trans (scanUntil2_snd_le _ _ _) (length_tail_le rest)
  rw [if_neg h19]
  by_cases h20 : c = ':' ∨ c = '@'
  · rw [if_pos h20]; exact length_dropWhile_le' _ _
  rw [if_neg h20]
  by_cases h21 : c.isAlpha = true ∨ c = '_'
  · rw [if_pos h21]; exact length_dropWhile_le' _ _
  rw [if_neg h21]

/-- The tokenizer main loop with explicit fuel (structural recursion so the
function computes by kernel reduction); `tokenizeGo` supplies enough fuel. -/
def tokenizeFuel (n : Nat) (l : List Char) : List Token :=
  match l with
  | [] => []
  | c :: rest =>
    match n with
    | 0 => []
    | n + 1 => (nextToken c rest).1 :: tokenizeFuel n (nextToken c rest).2

/-- Any fuel of at least the input length yields the same token list. -/
theorem tokenizeFuel_congr :
    ∀ (n m : Nat) (l : List Char), l.length ≤ n → l.length ≤ m →
      tokenizeFuel n l = tokenizeFuel m l := by
  intro n
  induction n with
  | zero =>
    intro m l h _
    cases l with
    | nil => cases m <;> rfl
    | cons c rest => simp at h
  | succ n ih =>
    intro m l hn hm
    cases l with
    | nil => cases m <;> rfl
    | cons c rest =>
      cases m with
      | zero => simp at hm
      | succ m =>
        show (nextToken c rest).1 :: tokenizeFuel n (nextToken c rest).2 =
          (nextToken c rest).1 :: tokenizeFuel m (nextToken c rest).2
        have hb := nextToken_rest_le c rest
        simp only [List.length_cons] at hn hm
        rw [ih m (nextToken c rest).2 (by omega) (by omega)]

/-- The tokenizer main loop (`tokenize`, without the terminal EOF token). -/
def tokenizeGo (l : List Char) : List Token := tokenizeFuel l.length l

theorem tokenizeGo_cons (c : Char) (rest : List Char) :
    tokenizeGo (c :: rest) =
      (nextToken c rest).1 :: tokenizeGo (nextToken c rest).2 := by
  show (nextToken c rest).1 :: tokenizeFuel rest.length (nextToken c rest).2 =
    (nextToken c rest).1 :: tokenizeFuel (nextToken c rest).2.length (nextToken c rest).2
  rw [tokenizeFuel_congr rest.length (nextToken c rest).2.length (nextToken c rest).2
    (nextToken_rest_le c rest) (le_refl _)]

/-- `tokenize` from `src/parser/tokenizer.ts`: the main scan plus the
terminal EOF token. -/
def tokenize (l : List Char) : List Token :=
  tokenizeGo l ++ [⟨.EOF, [], none⟩]

/-- Modelled from the spec: `src/parser/keywords.ts` is not among the
available sources.  The spec (§2, glossary, §4.4) describes the subset of
keywords that start a new output line ("clause keywords"), including the
compound keywords produced by the merge pass; membership is reconstructed
from the spec's examples and the repository's test expectations. -/
def CLAUSE_KEYWORDS : List (List Char) :=
  [ "SELECT", "FROM", "WHERE", "GROUP BY", "ORDER BY", "HAVING", "LIMIT",
    "JOIN", "INNER JOIN", "LEFT JOIN", "RIGHT JOIN", "FULL JOIN",
    "CROSS JOIN", "LEFT OUTER JOIN", "RIGHT OUTER JOIN", "FULL OUTER JOIN",
    "LEFT SEMI JOIN", "LEFT ANTI JOIN", "ON", "USING", "UNION", "UNION ALL",
    "INSERT INTO", "INSERT OVERWRITE", "MERGE INTO", "WHEN", "VALUES",
    "SET", "WITH", "DISTRIBUTE BY", "SORT BY", "CLUSTER BY", "PARTITION BY",
    "ZORDER BY", "LATERAL VIEW", "RETURNS", "RETURN", "LANGUAGE",
    "OPTIMIZE", "VACUUM", "USE", "TBLPROPERTIES" ].map String.data

/-- `CONCAT_FUNCTIONS` from `src/formatter/formatter.ts`. -/
def CONCAT_FUNCTIONS : List (List Char) := ["CONCAT", "CONCAT_WS"].map String.data

/-- `NON_FUNCTION_KEYWORDS` from `src/formatter/formatter.ts`. -/
def NON_FUNCTION_KEYWORDS : List (List Char) := ["IN", "NOT IN"].map String.data

/-- `FormatOptions.keywordCase` values. -/
inductive KeywordCaseOpt where
  | upper | lower | preserve
deriving DecidableEq, Repr

/-- `FormatOptions.commaPosition` values. -/
inductive CommaPosOpt where
  | leading | trailing
deriving DecidableEq, Repr

/-- `FormatOptions` from `src/formatter/options.ts`. -/
structure FormatOptions where
  indentSize : Nat
  keywordCase : KeywordCaseOpt
  commaPosition : CommaPosOpt
deriving DecidableEq, Repr

/-- `DEFAULT_OPTIONS` from `src/formatter/options.ts`. -/
def DEFAULT_OPTIONS : FormatOptions := ⟨2, .upper, .trailing⟩

/-- `applyCase` from `src/formatter/formatter.ts` (lines 45–52): keywords are
case-transformed per the option; non-keywords render as their value.  In
`preserve` mode JavaScript's `token.original || token.value` falls back to
the value when `original` is missing or empty. -/
def applyCase (o : FormatOptions) (t : Token) : List Char :=
  if t.type ≠ TokenType.Keyword then t.value
  else match o.keywordCase with
    | .upper => t.value.map Char.toUpper
    | .lower => t.value.map Char.toLower
    | .preserve =>
      match t.original with
      | some w => if w.isEmpty then t.value else w
      | none => t.value

/-- whitespace or newline token, skipped by the merge scans. -/
def isWsTok (t : Token) : Bool := t.type = TokenType.Whitespace || t.type = TokenType.Newline

/-- The `mergeables` table of `mergeClauseKeywords`
(`src/formatter/formatter.ts`, lines 464–487), in source order. -/
def mergeTable : List (List Char × List String) :=
  [ ("GROUP".data, ["BY"]), ("ORDER".data, ["BY"]), ("DISTRIBUTE".data, ["BY"]),
    ("SORT".data, ["BY"]), ("CLUSTER".data, ["BY"]), ("PARTITION".data, ["BY"]),
    ("INSERT".data, ["INTO", "OVERWRITE"]), ("MERGE".data, ["INTO"]),
    ("LEFT".data, ["JOIN", "OUTER JOIN", "SEMI JOIN", "ANTI JOIN"]),
    ("RIGHT".data, ["JOIN", "OUTER JOIN"]), ("FULL".data, ["JOIN", "OUTER JOIN"]),
    ("INNER".data, ["JOIN"]), ("CROSS".data, ["JOIN"]), ("NOT".data, ["IN"]),
    ("UNION".data, ["ALL"]), ("LATERAL".data, ["VIEW"]), ("ZORDER".data, ["BY"]),
    ("FULL OUTER".data, ["JOIN"]), ("LEFT OUTER".data, ["JOIN"]),
    ("RIGHT OUTER".data, ["JOIN"]), ("LEFT SEMI".data, ["JOIN"]),
    ("LEFT ANTI".data, ["JOIN"]) ]

/-- Key lookup in the merge table (JS `mergeables[t.value]`). -/
def mergeables (v : List Char) : Option (List String) :=
  (mergeTable.find? (fun p => p.1 == v)).map Prod.snd

/-- Match the parts of one suffix phrase against a token stream: before each
part, whitespace/newline tokens are skipped; each part must be a Keyword
token with exactly that value.  Returns the stream following the last
consumed keyword. -/
def matchParts : List (List Char) → List Token → Option (List Token)
  | [], ts => some ts
  | p :: ps, ts =>
    match ts.dropWhile isWsTok with
    | t :: r => if t.type = TokenType.Keyword ∧ t.value = p then matchParts ps r else none
    | [] => none

/-- Split a character list on single spaces (JS `suffix.split(' ')`). -/
def splitOnSpaceGo (cur : List Char) : List Char → List (List Char)
  | [] => [cur.reverse]
  | c :: rest =>
    if c = ' ' then cur.reverse :: splitOnSpaceGo [] rest
    else splitOnSpaceGo (c :: cur) rest

/-- JS `'A B'.split(' ') = ['A', 'B']`. -/
def splitOnSpace (l : List Char) : List (List Char) := splitOnSpaceGo [] l

/-- Build the compound keyword token for a matched suffix
(`{ type: Keyword, value: t.value + ' ' + suffix, original: t.original }`). -/
def compoundToken (t : Token) (s : String) : Token :=
  ⟨TokenType.Keyword, t.value ++ ' ' :: s.data, t.original⟩

/-- Try each suffix of the table entry in order; the first one whose parts
match wins. -/
def trySuffixes (t : Token) (sfx : List String) (rest : List Token) :
    Option (Token × List Token) :=
  match sfx with
  | [] => none
  | s :: ss =>
    match matchParts (splitOnSpace s.data) rest with
    | some r => some (compoundToken t s, r)
    | none => trySuffixes t ss rest

theorem length_dropWhile_le {α : Type} (p : α → Bool) (l : List α) :
    (l.dropWhile p).length ≤ l.length :=
  append_eq_snd_le (List.takeWhile_append_dropWhile (p := p) (l := l))

theorem matchParts_le {ps : List (List Char)} {ts r : List Token}
    (h : matchParts ps ts = some r) : r.length ≤ ts.length := by
  induction ps generalizing ts with
  | nil => simp only [matchParts, Option.some.injEq] at h; rw [h]
  | cons p ps ih =>
    simp only [matchParts] at h
    cases hdw : ts.dropWhile isWsTok with
    | nil => rw [hdw] at h; exact absurd h (by simp)
    | cons t rest2 =>
      rw [hdw] at h
      by_cases hc : t.type = TokenType.Keyword ∧ t.value = p
      · simp only [hc, and_self, if_true] at h
        have hr := ih h
        have h2 : rest2.length + 1 ≤ ts.length := by
          have hx := length_dropWhile_le isWsTok ts
          rw [hdw] at hx
          simpa using hx
        omega
      · simp [hc] at h

theorem trySuffixes_le {t : Token} {sfx : List String} {rest : List Token}
    {pr : Token × List Token} (h : trySuffixes t sfx rest = some pr) :
    pr.2.length ≤ rest.length := by
  induction sfx with
  | nil => simp [trySuffixes] at h
  | cons s ss ih =>
    simp only [trySuffixes] at h
    cases hm : matchParts (splitOnSpace s.data) rest with
    | none => rw [hm] at h; exact ih h
    | some r =>
      rw [hm] at h
      have := matchParts_le hm
      cases h
      simpa using this

/-- The `mergeClauseKeywords` loop with explicit fuel (structural recursion
so the function computes by kernel reduction). -/
def mergeCKFuel (n : Nat) (l : List Token) : List Token :=
  match l with
  | [] => []
  | t :: rest =>
    match n with
    | 0 => []
    | n + 1 =>
      if t.type = TokenType.Keyword then
        match mergeables t.value with
        | some sfx =>
          match trySuffixes t sfx rest with
          | some pr => pr.1 :: mergeCKFuel n pr.2
          | none => t :: mergeCKFuel n rest
        | none => t :: mergeCKFuel n rest
      else t :: mergeCKFuel n rest

/-- Any fuel of at least the token count yields the same merge result. -/
theorem mergeCKFuel_congr :
    ∀ (n m : Nat) (l : List Token), l.length ≤ n → l.length ≤ m →
      mergeCKFuel n l = mergeCKFuel m l := by
  intro n
  induction n with
  | zero =>
    intro m l h _
    cases l with
    | nil => cases m <;> rfl
    | cons t rest => simp at h
  | succ n ih =>
    intro m l hn hm
    cases l with
    | nil => cases m <;> rfl
    | cons t rest =>
      cases m with
      | zero => simp at hm
      | succ m =>
        simp only [List.length_cons] at hn hm
        show mergeCKFuel (n + 1) (t :: rest) = mergeCKFuel (m + 1) (t :: rest)
        by_cases hk : t.type = TokenType.Keyword
        · cases hme : mergeables t.value with
          | some sfx =>
            cases hts : trySuffixes t sfx rest with
            | some pr =>
              have hle := trySuffixes_le hts
              simp only [mergeCKFuel, hk, if_true, hme, hts]
              rw [ih m pr.2 (by omega) (by omega)]
            | none =>
              simp only [mergeCKFuel, hk, if_true, hme, hts]
              rw [ih m rest (by omega) (by omega)]
          | none =>
            simp only [mergeCKFuel, hk, if_true, hme]
            rw [ih m rest (by omega) (by omega)]
        · simp only [mergeCKFuel, hk, if_false]
          rw [ih m rest (by omega) (by omega)]

/-- `mergeClauseKeywords` from `src/formatter/formatter.ts` (lines 462–524):
fuse keyword + suffix-phrase sequences into single compound keyword tokens,
trying the suffixes of the table entry in order and skipping interleaved
whitespace/newline tokens. -/
def mergeClauseKeywords (l : List Token) : List Token := mergeCKFuel l.length l

theorem mergeClauseKeywords_cons_hit {t : Token} {rest : List Token}
    {sfx : List String} {pr : Token × List Token}
    (hk : t.type = TokenType.Keyword) (hme : mergeables t.value = some sfx)
    (hts : trySuffixes t sfx rest = some pr) :
    mergeClauseKeywords (t :: rest) = pr.1 :: mergeClauseKeywords pr.2 := by
  have hle := trySuffixes_le hts
  show mergeCKFuel (rest.length + 1) (t :: rest) = _
  simp only [mergeCKFuel, hk, if_true, hme, hts]
  rw [mergeCKFuel_congr rest.length pr.2.length pr.2 (by omega) (le_refl _)]
  rfl

theorem mergeClauseKeywords_cons_miss {t : Token} {rest : List Token}
    {sfx : List String}
    (hk : t.type = TokenType.Keyword) (hme : mergeables t.value = some sfx)
    (hts : trySuffixes t sfx rest = none) :
    mergeClauseKeywords (t :: rest) = t :: mergeClauseKeywords rest := by
  show mergeCKFuel (rest.length + 1) (t :: rest) = _
  simp only [mergeCKFuel, hk, if_true, hme, hts]
  rfl

theorem mergeClauseKeywords_cons_noEntry {t : Token} {rest : List Token}
    (hme : mergeables t.value = none) :
    mergeClauseKeywords (t :: rest) = t :: mergeClauseKeywords rest := by
  show mergeCKFuel (rest.length + 1) (t :: rest) = _
  by_cases hk : t.type = TokenType.Keyword
  · simp only [mergeCKFuel, hk, if_true, hme]
    rfl
  · simp only [mergeCKFuel, hk, if_false]
    rfl

theorem mergeClauseKeywords_cons_notKw {t : Token} {rest : List Token}
    (hk : t.type ≠ TokenType.Keyword) :
    mergeClauseKeywords (t :: rest) = t :: mergeClauseKeywords rest := by
  show mergeCKFuel (rest.length + 1) (t :: rest) = _
  simp only [mergeCKFuel, hk, if_false]
  rfl

/-- JavaScript whitespace for `trim()` and the `[\s\r\n]+$` body trim:
space, tab, CR, LF, vertical tab, form feed, NBSP, BOM. -/
def isJsWs (c : Char) : Bool :=
  c.isWhitespace || c = Char.ofNat 11 || c = Char.ofNat 12 ||
  c = Char.ofNat 160 || c = Char.ofNat 65279

/-- Drop trailing JS whitespace (the `body.replace(/[\s\r\n]+$/, '')`). -/
def dropTrailingJsWs (l : List Char) : List Char :=
  (l.reverse.dropWhile isJsWs).reverse

/-- Reconstruct the unquoted body text: whitespace/newline tokens keep their
text, all others use original casing when captured. -/
def bodyText (ts : List Token) : List Char :=
  (ts.map (fun x =>
    if x.type = TokenType.Newline ∨ x.type = TokenType.Whitespace then x.value
    else x.origValue)).flatten

/-- The `mergeUnquotedLanguageBody` loop with explicit fuel (structural
recursion so the function computes by kernel reduction). -/
def mergeULBFuel (n : Nat) (l : List Token) : List Token :=
  match l with
  | [] => []
  | t :: rest =>
    match n with
    | 0 => []
    | n + 1 =>
      if t.type = TokenType.Keyword ∧ t.value = "LANGUAGE".data then
        match rest.dropWhile isWsTok with
        | [] => t :: mergeULBFuel n rest
        | langId :: r2 =>
          if langId.type = TokenType.Identifier ∨ langId.type = TokenType.Keyword then
            match r2.dropWhile isWsTok with
            | [] => t :: mergeULBFuel n rest
            | asTok :: r4 =>
              if asTok.type = TokenType.Keyword ∧ asTok.value = "AS".data then
                match r4.dropWhile isWsTok with
                | [] => t :: mergeULBFuel n rest
                | bodyHead :: _ =>
                  if bodyHead.type = TokenType.DollarQuotedString ∨
                      bodyHead.type = TokenType.String then
                    t :: mergeULBFuel n rest
                  else
                    let bodyToks := r4.takeWhile
                      (fun x => x.type ≠ TokenType.Semicolon ∧ x.type ≠ TokenType.EOF)
                    let restFrom := r4.dropWhile
                      (fun x => x.type ≠ TokenType.Semicolon ∧ x.type ≠ TokenType.EOF)
                    let trimmed := dropTrailingJsWs (bodyText bodyToks)
                    (t :: rest.takeWhile isWsTok) ++ langId :: r2.takeWhile isWsTok ++
                      [asTok] ++
                      (if trimmed.isEmpty then [] else
                        [⟨TokenType.DollarQuotedString, trimmed, none⟩]) ++
                      mergeULBFuel n restFrom
              else t :: mergeULBFuel n rest
          else t :: mergeULBFuel n rest
      else t :: mergeULBFuel n rest

/-- Any fuel of at least the token count yields the same result. -/
theorem mergeULBFuel_congr :
    ∀ (n m : Nat) (l : List Token), l.length ≤ n → l.length ≤ m →
      mergeULBFuel n l = mergeULBFuel m l := by
  intro n
  induction n with
  | zero =>
    intro m l h _
    cases l with
    | nil => cases m <;> rfl
    | cons t rest => simp at h
  | succ n ih =>
    intro m l hn hm
    cases l with
    | nil => cases m <;> rfl
    | cons t rest =>
      cases m with
      | zero => simp at hm
      | succ m =>
        simp only [List.length_cons] at hn hm
        have hrec : mergeULBFuel n rest = mergeULBFuel m rest :=
          ih m rest (by omega) (by omega)
        show mergeULBFuel (n + 1) (t :: rest) = mergeULBFuel (m + 1) (t :: rest)
        by_cases hL : t.type = TokenType.Keyword ∧ t.value = "LANGUAGE".data
        · cases h1 : rest.dropWhile isWsTok with
          | nil => simp only [mergeULBFuel, hL, and_self, and_true, true_and, if_true, if_false, if_true, h1, hrec]
          | cons langId r2 =>
            have hr2 : r2.length < rest.length := by
              have hd := length_dropWhile_le isWsTok rest
              rw [h1] at hd
              simp only [List.length_cons] at hd
              omega
            by_cases hId : langId.type = TokenType.Identifier ∨
                langId.type = TokenType.Keyword
            · cases h2 : r2.dropWhile isWsTok with
              | nil => simp only [mergeULBFuel, hL, and_self, and_true, true_and, if_true, if_false, if_true, h1, hId, h2, hrec]
              | cons asTok r4 =>
                have hr4 : r4.length < r2.length := by
                  have hd := length_dropWhile_le isWsTok r2
                  rw [h2] at hd
                  simp only [List.length_cons] at hd
                  omega
                by_cases hAs : asTok.type = TokenType.Keyword ∧ asTok.value = "AS".data
                · cases h3 : r4.dropWhile isWsTok with
                  | nil => simp only [mergeULBFuel, hL, and_self, and_true, true_and, if_true, if_false, if_true, h1, hId, h2, hAs, h3, hrec]
                  | cons bodyHead rb =>
                    by_cases hQ : bodyHead.type = TokenType.DollarQuotedString ∨
                        bodyHead.type = TokenType.String
                    · simp only [mergeULBFuel, hL, and_self, and_true, true_and, if_true, if_false, if_true, h1, hId, h2, hAs, h3, hQ, hrec]
                    · have hrf := length_dropWhile_le
                        (fun x => decide (x.type ≠ TokenType.Semicolon ∧
                          x.type ≠ TokenType.EOF)) r4
                      have hrec2 : mergeULBFuel n (r4.dropWhile
                          (fun x => x.type ≠ TokenType.Semicolon ∧
                            x.type ≠ TokenType.EOF)) =
                          mergeULBFuel m (r4.dropWhile
                          (fun x => x.type ≠ TokenType.Semicolon ∧
                            x.type ≠ TokenType.EOF)) :=
                        ih m _ (by omega) (by omega)
                      simp only [mergeULBFuel, hL, and_self, and_true, true_and, if_true, if_false, if_true, h1, hId, h2, hAs, h3, hQ,
                        if_false, hrec2]
                · simp only [mergeULBFuel, hL, and_self, and_true, true_and, if_true, if_false, if_true, h1, hId, h2, hAs, hrec]
            · simp only [mergeULBFuel, hL, and_self, and_true, true_and, if_true, if_false, if_true, h1, hId, hrec]
        · simp only [mergeULBFuel, hL, and_self, and_true, true_and, if_true, if_false, hrec]

/-- `mergeUnquotedLanguageBody` from `src/formatter/formatter.ts`
(lines 590–661): after `LANGUAGE <identifier-or-keyword> AS` whose body is
not already a quoted or dollar-quoted string, fuse everything up to the next
semicolon or EOF into one verbatim DollarQuotedString token (trailing
whitespace trimmed). -/
def mergeUnquotedLanguageBody (l : List Token) : List Token := mergeULBFuel l.length l

/-- `ParenType` from `src/formatter/formatter.ts` (line 6). -/
inductive ParenType where
  | subquery | grouping | block | concat
deriving DecidableEq, Repr

/-- The mutable engine state of `formatDatabricksSQL`
(`src/formatter/formatter.ts`, lines 21–41): the output chunks pushed so
far and the layout state threaded through the token loop. -/
structure FmtState where
  result : List (List Char)
  indentLevel : Int
  lineStart : Bool
  statementStart : Bool
  parenStack : List ParenType
  caseStack : List Int
  prevMeaningful : Option Token
  ddlContext : Bool
  blockParenPending : Bool
  functionContext : Bool
  afterBlockClose : Bool
  needNewlineBeforeFirstColumn : Bool
deriving Repr

/-- The fresh state at the start of a `formatDatabricksSQL` call. -/
def initState : FmtState :=
  ⟨[], 0, true, true, [], [], none, false, false, false, false, false⟩

/-- `indent()` (line 43): spaces for the current nesting depth. -/
def indentOf (o : FormatOptions) (σ : FmtState) : List Char :=
  List.replicate (o.indentSize * σ.indentLevel.toNat) ' '

/-- One indent step of spaces. -/
def oneIndent (o : FormatOptions) : List Char := List.replicate o.indentSize ' '

/-- Does the previous meaningful token have the given type? -/
def prevType (σ : FmtState) (ty : TokenType) : Bool :=
  match σ.prevMeaningful with
  | some t => t.type = ty
  | none => false

/-- `findNextNonWhitespace` (lines 565–572), on the tokens after the current
position. -/
def findNextNonWhitespace : List Token → Option Token
  | [] => none
  | t :: rest => if isWsTok t then findNextNonWhitespace rest else some t

/-- `findNextMeaningful` (lines 574–583): next token that is not
whitespace, newline or a comment. -/
def findNextMeaningful : List Token → Option Token
  | [] => none
  | t :: rest =>
    if t.type = TokenType.Whitespace ∨ t.type = TokenType.Newline ∨
        t.type = TokenType.Comment ∨ t.type = TokenType.BlockComment then
      findNextMeaningful rest
    else some t

/-- Loop of `countTopLevelArgs` (lines 526–541). -/
def countTopLevelArgsGo : List Token → Nat → Nat → Nat
  | [], _, commas => commas + 1
  | t :: rest, depth, commas =>
    if t.type = TokenType.Whitespace ∨ t.type = TokenType.Newline then
      countTopLevelArgsGo rest depth commas
    else if t.type = TokenType.OpenParen then
      countTopLevelArgsGo rest (depth + 1) commas
    else if t.type = TokenType.CloseParen then
      if depth = 0 then commas + 1 else countTopLevelArgsGo rest (depth - 1) commas
    else if t.type = TokenType.Comma ∧ depth = 0 then
      countTopLevelArgsGo rest depth (commas + 1)
    else countTopLevelArgsGo rest depth commas

/-- `countTopLevelArgs` (lines 526–541): top-level comma count plus one. -/
def countTopLevelArgs (ts : List Token) : Nat := countTopLevelArgsGo ts 0 0

/-- Loop of `countSelectColumns` (lines 543–563). -/
def countSelectColumnsGo : List Token → Nat → Nat → Nat
  | [], _, commas => commas + 1
  | t :: rest, depth, commas =>
    if t.type = TokenType.Whitespace ∨ t.type = TokenType.Newline then
      countSelectColumnsGo rest depth commas
    else if t.type = TokenType.EOF then commas + 1
    else if t.type = TokenType.OpenParen then
      countSelectColumnsGo rest (depth + 1) commas
    else if t.type = TokenType.CloseParen then
      if depth = 0 then commas + 1 else countSelectColumnsGo rest (depth - 1) commas
    else if depth = 0 then
      if t.type = TokenType.Semicolon then commas + 1
      else if t.type = TokenType.Keyword ∧ CLAUSE_KEYWORDS.contains t.value then
        commas + 1
      else if t.type = TokenType.Comma then countSelectColumnsGo rest depth (commas + 1)
      else countSelectColumnsGo rest depth commas
    else countSelectColumnsGo rest depth commas

/-- `countSelectColumns` (lines 543–563): top-level comma count up to the
next clause keyword / semicolon / unbalanced close paren, plus one. -/
def countSelectColumns (ts : List Token) : Nat := countSelectColumnsGo ts 0 0

/-- The comment handler of the format loop (lines 67–127): comments go on
their own line, optionally preceded by a blank line, indented to align with
the next meaningful token. -/
def handleComment (o : FormatOptions) (σ0 : FmtState) (tok : Token)
    (rest : List Token) : FmtState :=
  -- Force comment to its own line if not already at line start
  let σ := if ¬σ0.lineStart then
      { σ0 with result := σ0.result ++ ["\n".data], lineStart := true }
    else σ0
  let needsBlankLine : Bool :=
    decide (σ.result.length > 0) && !σ.statementStart &&
    !(prevType σ TokenType.Comma) &&
    !(prevType σ TokenType.Comment || prevType σ TokenType.BlockComment) &&
    !(prevType σ TokenType.OpenParen) &&
    !(match σ.prevMeaningful with
      | some p => p.type = TokenType.Keyword && p.value == "CASE".data
      | none => false)
  let σ := if needsBlankLine then
      { σ with result := σ.result ++ ["\n".data] }
    else σ
  let ind := indentOf o σ
  let topParen := σ.parenStack.head?
  let contentIndent :=
    if σ.statementStart ∨ topParen = some ParenType.block ∨
        topParen = some ParenType.concat then ind
    else ind ++ oneIndent o
  let commentIndent :=
    match findNextMeaningful rest with
    | some nm =>
      if nm.type = TokenType.Keyword then
        if (nm.value = "WHEN".data ∨ nm.value = "ELSE".data) ∧ σ.caseStack ≠ [] then
          ind ++ oneIndent o
        else if nm.value = "END".data ∧ σ.caseStack ≠ [] then ind
        else if nm.value = "ON".data then ind ++ oneIndent o
        else if CLAUSE_KEYWORDS.contains nm.value then ind
        else if nm.value = "CASE".data then
          if σ.statementStart ∨ topParen = some ParenType.block then ind
          else ind ++ oneIndent o
        else contentIndent
      else contentIndent
    | none => contentIndent
  { σ with result := σ.result ++ [commentIndent ++ tok.value, "\n".data],
           lineStart := true, prevMeaningful := some tok }

/-- The DDL context tracking block (lines 131–148), applied to every
keyword before the main dispatch. -/
def ddlUpdate (σ : FmtState) (tok : Token) : FmtState :=
  if tok.type = TokenType.Keyword then
    let v := tok.value
    let σ1 :=
      if v = "CREATE".data ∨ v = "ALTER".data ∨ v = "DROP".data then
        { σ with ddlContext := true }
      else if (v = "TABLE".data ∨ v = "VIEW".data) ∧ σ.ddlContext then
        { σ with blockParenPending := true }
      else if v = "FUNCTION".data ∧ σ.ddlContext then
        { σ with functionContext := true }
      else if v = "AS".data ∧ σ.ddlContext then
        { σ with blockParenPending := false, ddlContext := false }
      else σ
    if v = "TBLPROPERTIES".data then { σ1 with blockParenPending := true } else σ1
  else σ

/-- The semicolon handler (lines 150–164): emit `;` plus a blank line and
reset the per-statement state (the paren stack is left as it is). -/
def handleSemicolon (σ : FmtState) (tok : Token) : FmtState :=
  { σ with result := σ.result ++ [";\n\n".data],
           indentLevel := 0, lineStart := true, statementStart := true,
           ddlContext := false, blockParenPending := false,
           functionContext := false, afterBlockClose := false,
           caseStack := [], needNewlineBeforeFirstColumn := false,
           prevMeaningful := some tok }

/-- The open-paren handler (lines 166–226): classify the paren as subquery,
block, concat expansion or grouping and lay it out accordingly. -/
def handleOpenParen (o : FormatOptions) (σ0 : FmtState) (tok : Token)
    (rest : List Token) : FmtState :=
  let nextNonWs := findNextNonWhitespace rest
  let isSubquery : Bool :=
    match nextNonWs with
    | some t => t.type = TokenType.Keyword && CLAUSE_KEYWORDS.contains t.value
    | none => false
  let isBlock : Bool := !isSubquery && σ0.blockParenPending
  let σ := if isBlock then { σ0 with blockParenPending := false } else σ0
  let isConcatExpand : Bool :=
    !isSubquery && !isBlock &&
    (match σ.prevMeaningful with
     | some p => p.type = TokenType.Keyword && CONCAT_FUNCTIONS.contains p.value
     | none => false) &&
    decide (countTopLevelArgs rest > 2)
  if isSubquery || isBlock then
    let pre := if σ.lineStart then indentOf o σ ++ oneIndent o else " ".data
    { σ with result := σ.result ++ [pre, "(".data, "\n".data],
             parenStack := (if isSubquery then ParenType.subquery else ParenType.block)
               :: σ.parenStack,
             indentLevel := σ.indentLevel + 1,
             lineStart := true, statementStart := false,
             prevMeaningful := some tok }
  else if isConcatExpand then
    let pre := indentOf o σ ++ (if σ.statementStart then [] else oneIndent o)
    let σ1 := if σ.lineStart then
        { σ with result := σ.result ++ [pre], statementStart := false }
      else σ
    { σ1 with result := σ1.result ++ ["(".data, "\n".data],
              parenStack := ParenType.concat :: σ1.parenStack,
              indentLevel := σ1.indentLevel + 1,
              lineStart := true,
              prevMeaningful := some tok }
  else
    let pre := indentOf o σ ++ (if σ.statementStart then [] else oneIndent o)
    let σ1 := if σ.lineStart then
        { σ with result := σ.result ++ [pre], statementStart := false }
      else
        let isFunctionCall : Bool :=
          match σ.prevMeaningful with
          | some p => p.type = TokenType.Identifier || p.type = TokenType.Backtick ||
              (p.type = TokenType.Keyword && !CLAUSE_KEYWORDS.contains p.value &&
               !NON_FUNCTION_KEYWORDS.contains p.value)
          | none => false
        if !isFunctionCall then { σ with result := σ.result ++ [" ".data] } else σ
    { σ1 with result := σ1.result ++ ["(".data],
              parenStack := ParenType.grouping :: σ1.parenStack,
              lineStart := false,
              prevMeaningful := some tok }

/-- The close-paren handler (lines 229–247): pop the stack (an empty stack
counts as a grouping paren); multi-line construct closes dedent and go on
their own line, grouping closes stay inline. -/
def handleCloseParen (o : FormatOptions) (σ : FmtState) (tok : Token) : FmtState :=
  match σ.parenStack with
  | [] =>
    { σ with afterBlockClose := false, result := σ.result ++ [")".data],
             lineStart := false, prevMeaningful := some tok }
  | pt :: stk =>
    if pt = ParenType.subquery ∨ pt = ParenType.block ∨ pt = ParenType.concat then
      let lvl := if σ.indentLevel > 0 then σ.indentLevel - 1 else σ.indentLevel
      let σ1 := { σ with parenStack := stk, indentLevel := lvl }
      let σ2 := { σ1 with result := σ1.result ++ ['\n' :: indentOf o σ1 ++ ")".data] }
      let σ3 := if stk.head? = some ParenType.grouping then
          { σ2 with afterBlockClose := true }
        else σ2
      { σ3 with lineStart := false, prevMeaningful := some tok }
    else
      { σ with parenStack := stk, afterBlockClose := false,
               result := σ.result ++ [")".data],
               lineStart := false, prevMeaningful := some tok }

/-- The CASE handler (lines 251–277). -/
def handleCase (o : FormatOptions) (σ0 : FmtState) (tok : Token) : FmtState :=
  let σ := if σ0.afterBlockClose then
      { σ0 with result := σ0.result ++ ["\n".data], lineStart := true,
                afterBlockClose := false }
    else σ0
  let σ := if ¬σ.lineStart then
      { σ with result := σ.result ++ ["\n".data], lineStart := true }
    else σ
  let topParen := σ.parenStack.head?
  let pre :=
    if σ.statementStart then indentOf o σ
    else if topParen = some ParenType.block then indentOf o σ
    else indentOf o σ ++ oneIndent o
  { σ with result := σ.result ++ [pre, applyCase o tok],
           caseStack := σ.indentLevel :: σ.caseStack,
           indentLevel := σ.indentLevel + 1,
           lineStart := false, statementStart := false,
           prevMeaningful := some tok }

/-- The WHEN/ELSE-inside-CASE handler (lines 280–301). -/
def handleWhenElse (o : FormatOptions) (σ : FmtState) (tok : Token) : FmtState :=
  let σ1 := if ¬σ.lineStart then { σ with result := σ.result ++ ["\n".data] } else σ
  { σ1 with result := σ1.result ++ [indentOf o σ1 ++ oneIndent o ++ applyCase o tok],
            lineStart := false, statementStart := false,
            prevMeaningful := some tok }

/-- The END-closing-CASE handler (lines 304–314): emit END at the CASE
indent and restore the indent level snapshot.  The empty-stack arm is
unreachable because the dispatch guards on a non-empty CASE stack. -/
def handleEnd (o : FormatOptions) (σ : FmtState) (tok : Token) : FmtState :=
  let σ1 := if ¬σ.lineStart then { σ with result := σ.result ++ ["\n".data] } else σ
  let σ2 := { σ1 with result := σ1.result ++ [indentOf o σ1 ++ applyCase o tok] }
  match σ2.caseStack with
  | v :: t =>
    { σ2 with indentLevel := v, caseStack := t, lineStart := false,
              statementStart := false, prevMeaningful := some tok }
  | [] =>
    { σ2 with lineStart := false, statementStart := false,
              prevMeaningful := some tok }

/-- The COMMENT-keyword-in-function-definition handler (lines 317–326). -/
def handleFnComment (o : FormatOptions) (σ : FmtState) (tok : Token) : FmtState :=
  let σ1 := if ¬σ.lineStart ∧ σ.result.length > 0 then
      { σ with result := σ.result ++ ["\n".data] }
    else σ
  { σ1 with result := σ1.result ++ [indentOf o σ1 ++ applyCase o tok],
            lineStart := false, statementStart := false,
            prevMeaningful := some tok }

/-- The clause-keyword handler (lines 329–348): newline before the clause,
`ON` one extra level; `SELECT` with more than one column arms the
first-column line break. -/
def handleClauseKw (o : FormatOptions) (σ : FmtState) (tok : Token)
    (rest : List Token) : FmtState :=
  let σ1 := if ¬σ.lineStart ∧ σ.result.length > 0 then
      { σ with result := σ.result ++ ["\n".data] }
    else σ
  let extraIndent := if tok.value = "ON".data then oneIndent o else []
  let σ2 := { σ1 with
    result := σ1.result ++ [indentOf o σ1 ++ extraIndent ++ applyCase o tok],
    lineStart := false, statementStart := false }
  let σ3 := if tok.value = "SELECT".data ∧ countSelectColumns rest > 1 then
      { σ2 with needNewlineBeforeFirstColumn := true }
    else σ2
  { σ3 with prevMeaningful := some tok }

/-- The comma handler (lines 351–368). -/
def handleComma (o : FormatOptions) (σ : FmtState) (tok : Token) : FmtState :=
  let topParen := σ.parenStack.head?
  let σ1 :=
    if topParen = some ParenType.grouping ∧ ¬σ.afterBlockClose then
      { σ with result := σ.result ++ [",".data], lineStart := false }
    else if o.commaPosition = CommaPosOpt.trailing then
      { σ with result := σ.result ++ [",\n".data], lineStart := true }
    else
      { σ with result := σ.result ++ ['\n' :: indentOf o σ ++ ",".data],
               lineStart := false }
  { σ1 with afterBlockClose := false, prevMeaningful := some tok }

/-- The dot handler (lines 371–376). -/
def handleDot (σ : FmtState) (tok : Token) : FmtState :=
  { σ with result := σ.result ++ [".".data], lineStart := false,
           prevMeaningful := some tok }

/-- The token-after-a-dot handler (lines 377–382). -/
def handleAfterDot (o : FormatOptions) (σ : FmtState) (tok : Token) : FmtState :=
  { σ with result := σ.result ++ [applyCase o tok], lineStart := false,
           prevMeaningful := some tok }

/-- The dollar-quoted-string handler (lines 385–409): the body is emitted
verbatim, only the leading placement is decided. -/
def handleDollarQuoted (o : FormatOptions) (σ : FmtState) (tok : Token) : FmtState :=
  if ¬σ.lineStart then
    let σ1 :=
      if prevType σ TokenType.OpenParen then σ
      else if tok.value.head? = some '\n' ∨ tok.value.head? = some '\r' then σ
      else { σ with result := σ.result ++ [" ".data] }
    { σ1 with result := σ1.result ++ [tok.value], lineStart := false,
              statementStart := false, prevMeaningful := some tok }
  else
    let topParen := σ.parenStack.head?
    let pre :=
      if σ.statementStart then indentOf o σ
      else if topParen = some ParenType.block ∨ topParen = some ParenType.concat then
        indentOf o σ
      else indentOf o σ ++ oneIndent o
    { σ with result := σ.result ++ [pre, tok.value], lineStart := false,
             statementStart := false, prevMeaningful := some tok }

/-- The default token rendering (lines 413–456): first-column break after a
multi-column SELECT, forced newline after a multi-line block close, spacing
or indentation, then the case-transformed token text. -/
def handleDefault (o : FormatOptions) (σ0 : FmtState) (tok : Token) : FmtState :=
  let σ :=
    if σ0.needNewlineBeforeFirstColumn then
      if tok.type = TokenType.Keyword ∧
          (tok.value = "DISTINCT".data ∨ tok.value = "ALL".data) then σ0
      else
        { σ0 with result := σ0.result ++ ["\n".data], lineStart := true,
                  needNewlineBeforeFirstColumn := false }
    else σ0
  let σ :=
    if σ.afterBlockClose then
      { σ with result := σ.result ++ ["\n".data], lineStart := true,
               afterBlockClose := false }
    else σ
  let σ :=
    if ¬σ.lineStart then
      if prevType σ TokenType.OpenParen then σ
      else { σ with result := σ.result ++ [" ".data] }
    else
      let topParen := σ.parenStack.head?
      let pre :=
        if σ.statementStart then indentOf o σ
        else if topParen = some ParenType.block ∨ topParen = some ParenType.concat then
          indentOf o σ
        else indentOf o σ ++ oneIndent o
      { σ with result := σ.result ++ [pre], lineStart := false }
  { σ with result := σ.result ++ [applyCase o tok], lineStart := false,
           statementStart := false, prevMeaningful := some tok }

/-- One iteration of the format loop of `formatDatabricksSQL`
(lines 58–457): dispatch the current token to its handler, in the source's
branch order; `rest` is the token stream after the current token (used by
the bounded lookaheads). -/
def processToken (o : FormatOptions) (σ : FmtState) (tok : Token)
    (rest : List Token) : FmtState :=
  if tok.type = TokenType.Whitespace ∨ tok.type = TokenType.Newline then σ
  else if tok.type = TokenType.Comment ∨ tok.type = TokenType.BlockComment then
    handleComment o σ tok rest
  else if tok.type = TokenType.EOF then σ
  else
    let σ := ddlUpdate σ tok
    if tok.type = TokenType.Semicolon then handleSemicolon σ tok
    else if tok.type = TokenType.OpenParen then handleOpenParen o σ tok rest
    else if tok.type = TokenType.CloseParen then handleCloseParen o σ tok
    else if tok.type = TokenType.Keyword ∧ tok.value = "CASE".data then
      handleCase o σ tok
    else if tok.type = TokenType.Keyword ∧ tok.value = "WHEN".data ∧
        σ.caseStack ≠ [] then handleWhenElse o σ tok
    else if tok.type = TokenType.Keyword ∧ tok.value = "ELSE".data ∧
        σ.caseStack ≠ [] then handleWhenElse o σ tok
    else if tok.type = TokenType.Keyword ∧ tok.value = "END".data ∧
        σ.caseStack ≠ [] then handleEnd o σ tok
    else if tok.type = TokenType.Keyword ∧ tok.value = "COMMENT".data ∧
        σ.functionContext then handleFnComment o σ tok
    else if tok.type = TokenType.Keyword ∧ CLAUSE_KEYWORDS.contains tok.value then
      handleClauseKw o σ tok rest
    else if tok.type = TokenType.Comma then handleComma o σ tok
    else if tok.type = TokenType.Dot then handleDot σ tok
    else if prevType σ TokenType.Dot then handleAfterDot o σ tok
    else if tok.type = TokenType.DollarQuotedString then handleDollarQuoted o σ tok
    else handleDefault o σ tok

/-- The token loop of `formatDatabricksSQL` (lines 58–457); the EOF token
breaks out of the loop. -/
def formatLoop (o : FormatOptions) (σ : FmtState) : List Token → FmtState
  | [] => σ
  | t :: rest =>
    if t.type = TokenType.EOF then σ
    else formatLoop o (processToken o σ t rest) rest

/-- JavaScript `String.prototype.trim` on both ends. -/
def jsTrim (l : List Char) : List Char :=
  ((l.dropWhile isJsWs).reverse.dropWhile isJsWs).reverse

/-- `formatDatabricksSQL` from `src/formatter/formatter.ts` (lines 14–460):
tokenize, merge keywords and unquoted LANGUAGE bodies, run the format loop
from the fresh state, then trim the joined output and append one newline. -/
def formatDatabricksSQL (input : List Char) (o : FormatOptions) : List Char :=
  let tokens := tokenize input
  let merged := mergeUnquotedLanguageBody (mergeClauseKeywords tokens)
  jsTrim ((formatLoop o initState merged).result.flatten) ++ ['\n']

/-- String-typed wrapper around `formatDatabricksSQL`. -/
def formatString (input : String) (o : FormatOptions) : String :=
  String.mk (formatDatabricksSQL input.data o)

/-! ## Concatenation of token texts (claim C1) -/

/-- Concatenation of the `value` fields of a token list. -/
def concatValues (ts : List Token) : List Char := (ts.map Token.value).flatten

/-- Concatenation of the original texts (`original` when captured, else
`value`) of a token list. -/
def concatOrig (ts : List Token) : List Char := (ts.map Token.origValue).flatten

@[simp] theorem concatOrig_nil : concatOrig [] = [] := rfl

@[simp] theorem concatOrig_cons (t : Token) (ts : List Token) :
    concatOrig (t :: ts) = t.origValue ++ concatOrig ts := by
  simp [concatOrig]

theorem concatOrig_append (a b : List Token) :
    concatOrig (a ++ b) = concatOrig a ++ concatOrig b := by
  simp [concatOrig]

theorem tokenizeGo_lossless (l : List Char) : concatOrig (tokenizeGo l) = l := by
  generalize hn : l.length = n
  induction n using Nat.strong_induction_on generalizing l with
  | _ n ih =>
    cases l with
    | nil => rfl
    | cons c rest =>
      rw [tokenizeGo_cons, concatOrig_cons]
      have hlt : (nextToken c rest).2.length < n := by
        rw [← hn]
        simp only [List.length_cons]
        exact Nat.lt_succ_of_le (nextToken_rest_le c rest)
      rw [ih _ hlt _ rfl]
      exact nextToken_origValue_append c rest

/-- C1 (amended): concatenating, in order, the original text of every token
returned by `tokenize` — the captured `original` casing for keyword tokens,
the `value` for all others — reproduces the input exactly, so the lexer is
total and lossless and every input character belongs to exactly one token.
(As literally stated over the `value` fields the claim fails, because the
keyword rule stores the upper-cased text in `value`;
see `tokenize_value_concat_counterexample`.) -/
theorem tokenize_lossless_original (l : List Char) : concatOrig (tokenize l) = l := by
  unfold tokenize
  rw [concatOrig_append, tokenizeGo_lossless]
  simp [Token.origValue]

/-- C1 (counterexample): on the input `select`, concatenating the `value`
fields of the tokens gives `SELECT`, not the input: the keyword rule stores
the upper-cased form in `value` and the original casing in `original`. -/
theorem tokenize_value_concat_counterexample :
    concatValues (tokenize "select".data) = "SELECT".data ∧
    concatValues (tokenize "select".data) ≠ "select".data := by
  constructor
  · rfl
  · decide

/-- C3 (amended): processing a Semicolon token emits `;` plus a blank line
and resets the indent level, all five context flags, the CASE stack and the
first-column flag — but the open-construct paren stack is left unchanged
(the handler does not clear it). -/
theorem semicolon_resets_per_statement_state (o : FormatOptions) (σ : FmtState)
    (tok : Token) (rest : List Token) (h : tok.type = TokenType.Semicolon) :
    processToken o σ tok rest =
      { σ with result := σ.result ++ [";\n\n".data],
               indentLevel := 0, lineStart := true, statementStart := true,
               ddlContext := false, blockParenPending := false,
               functionContext := false, afterBlockClose := false,
               caseStack := [], needNewlineBeforeFirstColumn := false,
               prevMeaningful := some tok } := by
  unfold processToken
  rw [if_neg (by rw [h]; simp), if_neg (by rw [h]; simp), if_neg (by rw [h]; simp)]
  have hd : ddlUpdate σ tok = σ := by
    unfold ddlUpdate
    rw [if_neg (by rw [h]; simp)]
  rw [hd, if_pos h]
  rfl

/-- C3 (witness): the reset equation applied to a concrete state with a
non-empty paren stack. -/
theorem semicolon_resets_per_statement_state_witness :
    processToken DEFAULT_OPTIONS
        { initState with parenStack := [ParenType.grouping] }
        ⟨TokenType.Semicolon, ";".data, none⟩ [] =
      { initState with parenStack := [ParenType.grouping],
                       result := [";\n\n".data],
                       prevMeaningful := some ⟨TokenType.Semicolon, ";".data, none⟩ } := by
  have h := semicolon_resets_per_statement_state DEFAULT_OPTIONS
    { initState with parenStack := [ParenType.grouping] }
    ⟨TokenType.Semicolon, ";".data, none⟩ [] rfl
  rw [h]
  rfl

/-- C3 (counterexample): the claim says both stacks become empty at a
semicolon; in fact the paren stack survives.  State-level: a state whose
paren stack holds an open grouping paren keeps it across the semicolon
handler.  Program-level: in `(a; b, c` the comma of the second statement is
still rendered inline (the leaked grouping paren suppresses the line
break), so the two statements are not formatted independently. -/
theorem semicolon_keeps_paren_stack_counterexample :
    (processToken DEFAULT_OPTIONS
        { initState with parenStack := [ParenType.grouping] }
        ⟨TokenType.Semicolon, ";".data, none⟩ []).parenStack ≠ [] ∧
    formatDatabricksSQL "(a; b, c".data DEFAULT_OPTIONS = "(a;\n\nb, c\n".data ∧
    formatDatabricksSQL "b, c".data DEFAULT_OPTIONS = "b,\n  c\n".data := by
  refine ⟨by decide, rfl, rfl⟩

/-- C5: the spec's concrete scenario — with default options, the
multi-column SELECT statement is laid out with one column per indented
line, trailing commas, and FROM/WHERE at column zero. -/
theorem format_basic_select_scenario :
    formatDatabricksSQL "select a, b, c from my_table where x = 1".data
        DEFAULT_OPTIONS =
      "SELECT\n  a,\n  b,\n  c\nFROM my_table\nWHERE x = 1\n".data := by
  rfl

/-- C7: with `keywordCase = preserve`, the engine renders a merged compound
keyword through `token.original`, which holds only the first word's
original casing, so the suffix of the compound keyword is dropped from the
output: formatting `select a from t group by b` renders the GROUP BY clause
as just `group`, losing `by` entirely.  (With `upper`/`lower` the compound
value is used, so only `preserve` is affected.) -/
theorem preserve_drops_compound_keyword_suffix :
    formatDatabricksSQL "select a from t group by b".data
        ⟨2, KeywordCaseOpt.preserve, CommaPosOpt.trailing⟩ =
      "select a\nfrom t\ngroup b\n".data ∧
    applyCase ⟨2, KeywordCaseOpt.preserve, CommaPosOpt.trailing⟩
        (compoundToken ⟨TokenType.Keyword, "GROUP".data, some "group".data⟩ "BY") =
      "group".data := by
  refine ⟨?_, ?_⟩ <;> rfl

/-! ## Trailing newline and trimming (claim C10) -/

theorem dropWhile_head_not {α : Type} (p : α → Bool) :
    ∀ (l : List α) (c : α), (l.dropWhile p).head? = some c → p c = false := by
  intro l
  induction l with
  | nil => intro c h; simp at h
  | cons a t ih =>
    intro c h
    by_cases hp : p a = true
    · rw [List.dropWhile_cons_of_pos hp] at h
      exact ih c h
    · rw [List.dropWhile_cons_of_neg hp] at h
      simp only [List.head?_cons, Option.some.injEq] at h
      rw [← h]
      exact Bool.not_eq_true _ |>.mp hp

theorem jsTrim_getLast (l : List Char) (c : Char)
    (h : (jsTrim l).getLast? = some c) : isJsWs c = false := by
  unfold jsTrim at h
  rw [List.getLast?_reverse] at h
  exact dropWhile_head_not _ _ _ h

theorem jsTrim_head (l : List Char) (c : Char)
    (h : (jsTrim l).head? = some c) : isJsWs c = false := by
  unfold jsTrim at h
  rw [List.head?_reverse] at h
  have hne : (l.dropWhile isJsWs).reverse.dropWhile isJsWs ≠ [] := by
    intro h0
    rw [h0] at h
    simp at h
  have hlast : ((l.dropWhile isJsWs).reverse.dropWhile isJsWs).getLast? =
      (l.dropWhile isJsWs).reverse.getLast? := by
    conv_rhs => rw [← List.takeWhile_append_dropWhile (p := isJsWs)
      (l := (l.dropWhile isJsWs).reverse)]
    rw [List.getLast?_append_of_ne_nil _ hne]
  rw [hlast, List.getLast?_reverse] at h
  exact dropWhile_head_not _ _ _ h

/-- C10: for every input and options, the output is the trimmed output text
followed by exactly one newline: the part before the final newline neither
starts nor ends with whitespace (so there is exactly one trailing newline
and incidental whitespace around the result is trimmed), the empty input
yields exactly a newline, and so does whitespace-only input. -/
theorem format_trailing_newline_and_trim :
    (∀ (l : List Char) (o : FormatOptions), ∃ t,
       formatDatabricksSQL l o = t ++ ['\n'] ∧
       t.head?.all (fun c => !isJsWs c) = true ∧
       t.getLast?.all (fun c => !isJsWs c) = true) ∧
    (∀ o : FormatOptions, formatDatabricksSQL [] o = ['\n']) ∧
    (∀ o : FormatOptions, formatDatabricksSQL " \t ".data o = ['\n']) := by
  refine ⟨?_, fun o => rfl, fun o => rfl⟩
  intro l o
  refine ⟨jsTrim ((formatLoop o initState
    (mergeUnquotedLanguageBody (mergeClauseKeywords (tokenize l)))).result.flatten),
    rfl, ?_, ?_⟩
  · cases hh : (jsTrim ((formatLoop o initState
        (mergeUnquotedLanguageBody (mergeClauseKeywords (tokenize l)))).result.flatten)).head? with
    | none => rfl
    | some c =>
      simp only [Option.all_some, Bool.not_eq_true']
      exact jsTrim_head _ _ hh
  · cases hh : (jsTrim ((formatLoop o initState
        (mergeUnquotedLanguageBody (mergeClauseKeywords (tokenize l)))).result.flatten)).getLast? with
    | none => rfl
    | some c =>
      simp only [Option.all_some, Bool.not_eq_true']
      exact jsTrim_getLast _ _ hh

/-! ## Totality of the pipeline (claim C2) -/

/-- Does the two-character sequence `x y` occur (at adjacent positions)? -/
def containsPair (x y : Char) : List Char → Bool
  | a :: b :: t => (a = x && b = y) || containsPair x y (b :: t)
  | _ => false

theorem scanUntil2_no_pair (x y : Char) :
    ∀ l : List Char, containsPair x y l = false → scanUntil2 x y l = (l, []) := by
  intro l
  induction l with
  | nil => intro _; rfl
  | cons a t ih =>
    intro h
    cases t with
    | nil => rfl
    | cons b t2 =>
      simp only [containsPair, Bool.or_eq_false_iff, Bool.and_eq_false_iff] at h
      have hab : ¬(a = x ∧ b = y) := by
        rintro ⟨h1, h2⟩
        rcases h.1 with h3 | h3 <;> simp [h1, h2] at h3
      have h2 := ih h.2
      simp only [scanUntil2, if_neg hab, h2]

theorem scanStr_no_quote :
    ∀ s : List Char, quoteC ∉ s → scanStr s = (s, []) := by
  intro s
  induction s with
  | nil => intro _; rfl
  | cons a t ih =>
    intro h
    have ha : a ≠ quoteC := by
      intro hh
      exact h (by rw [hh]; exact List.mem_cons_self _ _)
    have ht : quoteC ∉ t := fun hm => h (List.mem_cons_of_mem _ hm)
    cases t with
    | nil => simp only [scanStr, if_neg ha]
    | cons b t2 =>
      have hab : ¬(a = quoteC ∧ b = quoteC) := fun hh => ha hh.1
      have h2 := ih ht
      simp only [scanStr, if_neg hab, if_neg ha, h2]

/-- C2: the pipeline is total.  (i) Any character that starts no tokenizer
rule is emitted as a single-character Operator token (the fallback branch).
(ii) An unterminated single-quoted string is consumed to the end of the
input as one String token.  (iii) An unterminated block comment is consumed
to the end of the input as one BlockComment token.  (iv) A CloseParen token
arriving with an empty construct stack is rendered as a grouping close: the
engine appends `)` and continues (no failure, indent level untouched).
(v) The whole of `formatDatabricksSQL` always returns a (non-empty) string.
Together with the fact that every function of the embedding is a total
function, this is the claim's totality statement. -/
theorem pipeline_total :
    (∀ (c : Char) (rest : List Char),
       isSpaceTab c = false → c.isDigit = false → c.isAlpha = false →
       singleOps.contains c = false →
       c ≠ '\n' → c ≠ '\r' → c ≠ '-' → c ≠ '/' → c ≠ quoteC → c ≠ dquoteC →
       c ≠ backquoteC → c ≠ '(' → c ≠ ')' → c ≠ ',' → c ≠ ';' → c ≠ '.' →
       c ≠ '$' → c ≠ obraceC → c ≠ ':' → c ≠ '@' → c ≠ '_' →
       nextToken c rest = (⟨TokenType.Operator, [c], none⟩, rest)) ∧
    (∀ s : List Char, quoteC ∉ s →
       tokenize (quoteC :: s) =
         [⟨TokenType.String, quoteC :: s, none⟩, ⟨TokenType.EOF, [], none⟩]) ∧
    (∀ s : List Char, containsPair '*' '/' s = false →
       tokenize ('/' :: '*' :: s) =
         [⟨TokenType.BlockComment, '/' :: '*' :: s, none⟩, ⟨TokenType.EOF, [], none⟩]) ∧
    (∀ (o : FormatOptions) (σ : FmtState) (rest : List Token),
       σ.parenStack = [] →
       processToken o σ ⟨TokenType.CloseParen, ")".data, none⟩ rest =
         { σ with afterBlockClose := false, result := σ.result ++ [")".data],
                  lineStart := false,
                  prevMeaningful := some ⟨TokenType.CloseParen, ")".data, none⟩ }) ∧
    (∀ (l : List Char) (o : FormatOptions), formatDatabricksSQL l o ≠ []) := by
  refine ⟨?_, ?_, ?_, ?_, ?_⟩
  · intro c rest h1 h9 h20 h15 hn hr hminus hslash hq hdq hbq hop hcp hcm hsc hdot
      hdollar hob hcolon hat hus
    have htc : ∀ d, isTwoCharOp c d = false := by
      intro d
      have hbang : c ≠ '!' := by
        intro hh; rw [hh] at h15; exact absurd h15 (by decide)
      have hlt : c ≠ '<' := by
        intro hh; rw [hh] at h15; exact absurd h15 (by decide)
      have hgt : c ≠ '>' := by
        intro hh; rw [hh] at h15; exact absurd h15 (by decide)
      have hpipe : c ≠ '|' := by
        intro hh; rw [hh] at h15; exact absurd h15 (by decide)
      simp [isTwoCharOp, hbang, hlt, hgt, hpipe, hminus]
    unfold nextToken
    rw [if_neg (by simp [h1]),
        if_neg (fun hh => hr hh.1),
        if_neg (fun hh => hh.elim hn hr),
        if_neg (fun hh => hminus hh.1),
        if_neg (fun hh => hslash hh.1),
        if_neg hq, if_neg hdq, if_neg hbq,
        if_neg (fun hh => hh.elim (by simp [h9]) (fun hz => hdot hz.1)),
        if_neg hop, if_neg hcp, if_neg hcm, if_neg hsc, if_neg hdot,
        if_neg (by cases rest with
          | nil => simp
          | cons d t => simp [htc d]),
        if_neg (by intro hh; rw [h15] at hh; exact absurd hh (by decide)),
        if_neg (fun hh => hdollar hh.1),
        if_neg (fun hh => hdollar hh.1),
        if_neg (fun hh => hob hh.1),
        if_neg (fun hh => hh.elim hcolon hat),
        if_neg (fun hh => hh.elim (by simp [h20]) hus)]
  · intro s hs
    have hstep : nextToken quoteC s = (⟨TokenType.String, quoteC :: s, none⟩, []) := by
      unfold nextToken
      rw [if_neg (by decide),
          if_neg (fun hh => absurd hh.1 (by decide)),
          if_neg (by decide),
          if_neg (fun hh => absurd hh.1 (by decide)),
          if_neg (fun hh => absurd hh.1 (by decide)),
          if_pos rfl, scanStr_no_quote s hs]
    unfold tokenize
    rw [tokenizeGo_cons, hstep]
    rfl
  · intro s hs
    have hstep : nextToken '/' ('*' :: s) =
        (⟨TokenType.BlockComment, '/' :: '*' :: s, none⟩, []) := by
      unfold nextToken
      rw [if_neg (by decide),
          if_neg (fun hh => absurd hh.1 (by decide)),
          if_neg (by decide),
          if_neg (fun hh => absurd hh.1 (by decide)),
          if_pos ⟨rfl, rfl⟩]
      simp only [List.tail_cons, scanUntil2_no_pair '*' '/' s hs]
    unfold tokenize
    rw [tokenizeGo_cons, hstep]
    rfl
  · intro o σ rest hps
    unfold processToken
    rw [if_neg (by decide), if_neg (by decide), if_neg (by decide)]
    have hd : ddlUpdate σ ⟨TokenType.CloseParen, ")".data, none⟩ = σ := by
      unfold ddlUpdate
      rw [if_neg (by decide)]
    rw [hd, if_neg (by decide), if_neg (by decide), if_pos rfl]
    unfold handleCloseParen
    rw [hps]
  · intro l o h
    have hlen := congrArg List.length h
    simp [formatDatabricksSQL] at hlen

/-- C2 (witness): the totality statement instantiated at concrete inputs —
the unrecognized character `#`, the unterminated string `'abc`, the
unterminated block comment `/*abc`, a close paren on an empty stack, and
the empty program. -/
theorem pipeline_total_witness :
    nextToken '#' [] = (⟨TokenType.Operator, ['#'], none⟩, []) ∧
    tokenize (quoteC :: "abc".data) =
      [⟨TokenType.String, quoteC :: "abc".data, none⟩, ⟨TokenType.EOF, [], none⟩] ∧
    tokenize ('/' :: '*' :: "abc".data) =
      [⟨TokenType.BlockComment, '/' :: '*' :: "abc".data, none⟩,
       ⟨TokenType.EOF, [], none⟩] ∧
    processToken DEFAULT_OPTIONS initState ⟨TokenType.CloseParen, ")".data, none⟩ [] =
      { initState with afterBlockClose := false, result := [")".data],
                       lineStart := false,
                       prevMeaningful := some ⟨TokenType.CloseParen, ")".data, none⟩ } ∧
    formatDatabricksSQL [] DEFAULT_OPTIONS ≠ [] := by
  obtain ⟨ha, hb, hc, hd, he⟩ := pipeline_total
  refine ⟨?_, ?_, ?_, ?_, ?_⟩
  · exact ha '#' [] (by decide) (by decide) (by decide) (by decide) (by decide)
      (by decide) (by decide) (by decide) (by decide) (by decide) (by decide)
      (by decide) (by decide) (by decide) (by decide) (by decide) (by decide)
      (by decide) (by decide) (by decide) (by decide)
  · exact hb "abc".data (by decide)
  · exact hc "abc".data (by decide)
  · have h := hd DEFAULT_OPTIONS initState [] rfl
    rw [h]
    rfl
  · exact he [] DEFAULT_OPTIONS

/-! ## Numeric literal shape (claim C8) -/

/-- Count of maximal runs of dots in a character list. -/
def dotRunsGo : Bool → List Char → Nat
  | _, [] => 0
  | prev, c :: rest =>
    if c = '.' then (if prev then 0 else 1) + dotRunsGo true rest
    else dotRunsGo false rest

/-- Number of maximal runs of `.` characters. -/
def dotRuns (l : List Char) : Nat := dotRunsGo false l

/-- C8 (counterexample): the input `1.2.3` is lexed as a single Number
token whose text contains two separate embedded runs of dots — the number
rule consumes any mixture of digits and dots, so "at most one embedded run
of dots" fails. -/
theorem tokenize_number_two_dot_runs_counterexample :
    tokenize "1.2.3".data =
      [⟨TokenType.Number, "1.2.3".data, none⟩, ⟨TokenType.EOF, [], none⟩] ∧
    dotRuns "1.2.3".data = 2 := by
  refine ⟨?_, ?_⟩ <;> rfl

/-- The shape of the scientific-notation suffix the number rule can
produce: empty, or `e`/`E`, an optional sign, and a (possibly empty) digit
run. -/
def sciSuffixShape (l : List Char) : Prop :=
  l = [] ∨ ∃ (e : Char) (sgn ds : List Char),
    (e = 'e' ∨ e = 'E') ∧
    (sgn = [] ∨ sgn = ['+'] ∨ sgn = ['-']) ∧
    (∀ c ∈ ds, c.isDigit = true) ∧ l = e :: (sgn ++ ds)

/-- The shape of a numeric-literal token text: a non-empty run of digits
and dots followed by an optional scientific-notation suffix. -/
def NumShape (l : List Char) : Prop :=
  ∃ core sci, l = core ++ sci ∧ core ≠ [] ∧
    (∀ c ∈ core, isNumChar c = true) ∧ sciSuffixShape sci

theorem scanSci_shape (l : List Char) : sciSuffixShape (scanSci l).1 := by
  unfold scanSci
  split
  next => exact Or.inl rfl
  next e r =>
    split
    next he =>
      split
      next s t =>
        split
        next hs =>
          refine Or.inr ⟨e, [s], t.takeWhile Char.isDigit, he, ?_, ?_, rfl⟩
          · rcases hs with h | h
            · exact Or.inr (Or.inl (by rw [h]))
            · exact Or.inr (Or.inr (by rw [h]))
          · intro c hc
            exact List.mem_takeWhile_imp hc
        next hs =>
          refine Or.inr ⟨e, [], (s :: t).takeWhile Char.isDigit, he, Or.inl rfl, ?_, rfl⟩
          intro c hc
          exact List.mem_takeWhile_imp hc
      next => exact Or.inr ⟨e, [], [], he, Or.inl rfl, by simp, rfl⟩
    next he => exact Or.inl rfl

theorem nextToken_number_shape (c : Char) (rest : List Char)
    (hty : (nextToken c rest).1.type = TokenType.Number) :
    NumShape (nextToken c rest).1.value := by
  unfold nextToken at hty ⊢
  by_cases h1 : isSpaceTab c = true
  · rw [if_pos h1] at hty; simp at hty
  rw [if_neg h1] at hty ⊢
  by_cases h2 : c = '\r' ∧ rest.head? = some '\n'
  · rw [if_pos h2] at hty; simp at hty
  rw [if_neg h2] at hty ⊢
  by_cases h3 : c = '\n' ∨ c = '\r'
  · rw [if_pos h3] at hty; simp at hty
  rw [if_neg h3] at hty ⊢
  by_cases h4 : c = '-' ∧ rest.head? = some '-'
  · rw [if_pos h4] at hty; simp at hty
  rw [if_neg h4] at hty ⊢
  by_cases h5 : c = '/' ∧ rest.head? = some '*'
  · rw [if_pos h5] at hty; simp at hty
  rw [if_neg h5] at hty ⊢
  by_cases h6 : c = quoteC
  · rw [if_pos h6] at hty; simp at hty
  rw [if_neg h6] at hty ⊢
  by_cases h7 : c = dquoteC
  · rw [if_pos h7] at hty; simp at hty
  rw [if_neg h7] at hty ⊢
  by_cases h8 : c = backquoteC
  · rw [if_pos h8] at hty; simp at hty
  rw [if_neg h8] at hty ⊢
  by_cases h9 : c.isDigit = true ∨ (c = '.' ∧ (rest.head?.map Char.isDigit).getD false = true)
  · rw [if_pos h9]
    have hc : isNumChar c = true := by
      rcases h9 with hd | ⟨hdot, _⟩
      · simp [isNumChar, hd]
      · simp [isNumChar, hdot]
    refine ⟨(c :: rest).takeWhile isNumChar, (scanSci ((c :: rest).dropWhile isNumChar)).1,
      rfl, ?_, ?_, scanSci_shape _⟩
    · rw [List.takeWhile_cons_of_pos hc]
      simp
    · intro x hx
      exact List.mem_takeWhile_imp hx
  rw [if_neg h9] at hty ⊢
  by_cases h10 : c = '('
  · rw [if_pos h10] at hty; simp at hty
  rw [if_neg h10] at hty ⊢
  by_cases h11 : c = ')'
  · rw [if_pos h11] at hty; simp at hty
  rw [if_neg h11] at hty ⊢
  by_cases h12 : c = ','
  · rw [if_pos h12] at hty; simp at hty
  rw [if_neg h12] at hty ⊢
  by_cases h13 : c = ';'
  · rw [if_pos h13] at hty; simp at hty
  rw [if_neg h13] at hty ⊢
  by_cases h14 : c = '.'
  · rw [if_pos h14] at hty; simp at hty
  rw [if_neg h14] at hty ⊢
  by_cases h15 : (rest.head?.map (isTwoCharOp c)).getD false = true
  · rw [if_pos h15] at hty; simp at hty
  rw [if_neg h15] at hty ⊢
  by_cases h16 : singleOps.contains c = true
  · rw [if_pos h16] at hty; simp at hty
  rw [if_neg h16] at hty ⊢
  by_cases h17 : c = '$' ∧ rest.head? = some '$'
  · rw [if_pos h17] at hty; simp at hty
  rw [if_neg h17] at hty ⊢
  by_cases h18 : c = '$' ∧ rest.head? = some obraceC
  · rw [if_pos h18] at hty; simp at hty
  rw [if_neg h18] at hty ⊢
  by_cases h19 : c = obraceC ∧ rest.head? = some obraceC
  · rw [if_pos h19] at hty; simp at hty
  rw [if_neg h19] at hty ⊢
  by_cases h20 : c = ':' ∨ c = '@'
  · rw [if_pos h20] at hty; simp at hty
  rw [if_neg h20] at hty ⊢
  by_cases h21 : c.isAlpha = true ∨ c = '_'
  · rw [if_pos h21] at hty
    exfalso
    unfold mkWordToken at hty
    by_cases hk : KEYWORDS.contains ((c :: rest.takeWhile isWordChar).map Char.toUpper) = true
    · rw [if_pos hk] at hty; simp at hty
    · rw [if_neg hk] at hty; simp at hty
  rw [if_neg h21] at hty
  simp at hty

/-- C8 (amended): every Number token the lexer produces is a non-empty run
of digits and dots (dots may form any number of embedded runs, not at most
one), optionally followed by a scientific-notation suffix (`e`/`E`,
optional sign, possibly empty digit run); and a leading bare `.`
immediately followed by a digit starts a Number token. -/
theorem number_token_shape :
    (∀ (l : List Char) (t : Token), t ∈ tokenize l → t.type = TokenType.Number →
       NumShape t.value) ∧
    (∀ (d : Char) (cs : List Char), d.isDigit = true →
       (tokenizeGo ('.' :: d :: cs)).head?.map Token.type = some TokenType.Number) := by
  constructor
  · have hgo : ∀ (l : List Char) (t : Token), t ∈ tokenizeGo l →
        t.type = TokenType.Number → NumShape t.value := by
      intro l
      generalize hn : l.length = n
      induction n using Nat.strong_induction_on generalizing l with
      | _ n ih =>
        intro t hmem hty
        cases l with
        | nil => simp [tokenizeGo, tokenizeFuel] at hmem
        | cons c rest =>
          rw [tokenizeGo_cons] at hmem
          rcases List.mem_cons.mp hmem with heq | hmem2
          · subst heq
            exact nextToken_number_shape c rest hty
          · have hlt : (nextToken c rest).2.length < n := by
              rw [← hn]
              simp only [List.length_cons]
              exact Nat.lt_succ_of_le (nextToken_rest_le c rest)
            exact ih _ hlt _ rfl t hmem2 hty
    intro l t hmem hty
    unfold tokenize at hmem
    rcases List.mem_append.mp hmem with hm | hm
    · exact hgo l t hm hty
    · simp only [List.mem_singleton] at hm
      rw [hm] at hty
      exact absurd hty (by decide)
  · intro d cs hd
    rw [tokenizeGo_cons]
    have hstep : (nextToken '.' (d :: cs)).1.type = TokenType.Number := by
      unfold nextToken
      rw [if_neg (by decide),
          if_neg (fun hh => absurd hh.1 (by decide)),
          if_neg (by decide),
          if_neg (fun hh => absurd hh.1 (by decide)),
          if_neg (fun hh => absurd hh.1 (by decide)),
          if_neg (by decide), if_neg (by decide), if_neg (by decide),
          if_pos (Or.inr ⟨rfl, by simp [hd]⟩)]
    simp [hstep]

/-- C8 (witness): the shape statement applied to the concrete Number token
of `1.5e3` and the leading-dot statement applied to `.5`. -/
theorem number_token_shape_witness :
    NumShape "1.5e3".data ∧
    (tokenizeGo ('.' :: '5' :: [])).head?.map Token.type = some TokenType.Number := by
  constructor
  · exact number_token_shape.1 "1.5e3".data ⟨TokenType.Number, "1.5e3".data, none⟩
      (by decide) rfl
  · exact number_token_shape.2 '5' [] (by decide)

/-! ## Non-negative indentation (claim C9) -/

/-- The engine-state invariant: the indent level is non-negative and so is
every snapshot on the CASE stack. -/
def StateOK (σ : FmtState) : Prop :=
  0 ≤ σ.indentLevel ∧ ∀ x ∈ σ.caseStack, 0 ≤ x

theorem initState_ok : StateOK initState := by
  constructor
  · simp [initState]
  · intro x hx
    simp [initState] at hx

theorem ddlUpdate_ok (σ : FmtState) (tok : Token) (h : StateOK σ) : StateOK (ddlUpdate σ tok) := by
  obtain ⟨h1, h2⟩ := h
  constructor
  · simpa [ddlUpdate, apply_ite FmtState.indentLevel] using h1
  · simpa [ddlUpdate, apply_ite FmtState.caseStack] using h2

theorem handleComment_ok (o : FormatOptions) (σ : FmtState) (tok : Token)
    (rest : List Token) (h : StateOK σ) : StateOK (handleComment o σ tok rest) := by
  obtain ⟨h1, h2⟩ := h
  constructor
  · simpa [handleComment, apply_ite FmtState.indentLevel] using h1
  · simpa [handleComment, apply_ite FmtState.caseStack] using h2

theorem handleSemicolon_ok (σ : FmtState) (tok : Token) :
    StateOK (handleSemicolon σ tok) := by
  constructor
  · simp [handleSemicolon]
  · intro x hx
    simp [handleSemicolon] at hx

theorem handleOpenParen_ok (o : FormatOptions) (σ : FmtState) (tok : Token)
    (rest : List Token) (h : StateOK σ) : StateOK (handleOpenParen o σ tok rest) := by
  obtain ⟨h1, h2⟩ := h
  simp only [handleOpenParen]
  repeat' split
  all_goals refine ⟨by simp; omega, by simpa using h2⟩

theorem handleCloseParen_ok (o : FormatOptions) (σ : FmtState) (tok : Token)
    (h : StateOK σ) : StateOK (handleCloseParen o σ tok) := by
  obtain ⟨h1, h2⟩ := h
  simp only [handleCloseParen]
  repeat' split
  all_goals refine ⟨by simp; omega, by simpa using h2⟩

theorem handleCase_ok (o : FormatOptions) (σ : FmtState) (tok : Token)
    (h : StateOK σ) : StateOK (handleCase o σ tok) := by
  obtain ⟨h1, h2⟩ := h
  simp only [handleCase]
  repeat' split
  all_goals constructor
  all_goals try (simp; omega)
  all_goals intro x hx
  all_goals simp at hx
  all_goals rcases hx with hx | hx
  all_goals try (subst hx; simpa using h1)
  all_goals exact h2 x hx

theorem handleWhenElse_ok (o : FormatOptions) (σ : FmtState) (tok : Token)
    (h : StateOK σ) : StateOK (handleWhenElse o σ tok) := by
  obtain ⟨h1, h2⟩ := h
  constructor
  · simpa [handleWhenElse, apply_ite FmtState.indentLevel] using h1
  · simpa [handleWhenElse, apply_ite FmtState.caseStack] using h2

theorem handleEnd_ok (o : FormatOptions) (σ : FmtState) (tok : Token)
    (h : StateOK σ) : StateOK (handleEnd o σ tok) := by
  obtain ⟨h1, h2⟩ := h
  simp only [handleEnd]
  split
  · rename_i v t heq
    have hcs : σ.caseStack = v :: t := by
      simpa [apply_ite FmtState.caseStack] using heq
    constructor
    · have hv : v ∈ σ.caseStack := by
        rw [hcs]
        exact List.mem_cons_self _ _
      simpa using h2 v hv
    · intro x hx
      simp at hx
      exact h2 x (by rw [hcs]; exact List.mem_cons_of_mem _ hx)
  · rename_i heq
    constructor
    · simpa [apply_ite FmtState.indentLevel] using h1
    · intro x hx
      simp [apply_ite FmtState.caseStack] at hx
      exact h2 x hx

theorem handleFnComment_ok (o : FormatOptions) (σ : FmtState) (tok : Token)
    (h : StateOK σ) : StateOK (handleFnComment o σ tok) := by
  obtain ⟨h1, h2⟩ := h
  constructor
  · simpa [handleFnComment, apply_ite FmtState.indentLevel] using h1
  · simpa [handleFnComment, apply_ite FmtState.caseStack] using h2

theorem handleClauseKw_ok (o : FormatOptions) (σ : FmtState) (tok : Token)
    (rest : List Token) (h : StateOK σ) : StateOK (handleClauseKw o σ tok rest) := by
  obtain ⟨h1, h2⟩ := h
  constructor
  · simpa [handleClauseKw, apply_ite FmtState.indentLevel] using h1
  · simpa [handleClauseKw, apply_ite FmtState.caseStack] using h2

theorem handleComma_ok (o : FormatOptions) (σ : FmtState) (tok : Token)
    (h : StateOK σ) : StateOK (handleComma o σ tok) := by
  obtain ⟨h1, h2⟩ := h
  constructor
  · simpa [handleComma, apply_ite FmtState.indentLevel] using h1
  · simpa [handleComma, apply_ite FmtState.caseStack] using h2

theorem handleDot_ok (σ : FmtState) (tok : Token) (h : StateOK σ) :
    StateOK (handleDot σ tok) := by
  obtain ⟨h1, h2⟩ := h
  exact ⟨by simpa [handleDot] using h1, by simpa [handleDot] using h2⟩

theorem handleAfterDot_ok (o : FormatOptions) (σ : FmtState) (tok : Token)
    (h : StateOK σ) : StateOK (handleAfterDot o σ tok) := by
  obtain ⟨h1, h2⟩ := h
  exact ⟨by simpa [handleAfterDot] using h1, by simpa [handleAfterDot] using h2⟩

theorem handleDollarQuoted_ok (o : FormatOptions) (σ : FmtState) (tok : Token)
    (h : StateOK σ) : StateOK (handleDollarQuoted o σ tok) := by
  obtain ⟨h1, h2⟩ := h
  constructor
  · simpa [handleDollarQuoted, apply_ite FmtState.indentLevel] using h1
  · simpa [handleDollarQuoted, apply_ite FmtState.caseStack] using h2

theorem handleDefault_ok (o : FormatOptions) (σ : FmtState) (tok : Token)
    (h : StateOK σ) : StateOK (handleDefault o σ tok) := by
  obtain ⟨h1, h2⟩ := h
  constructor
  · simpa [handleDefault, apply_ite FmtState.indentLevel] using h1
  · simpa [handleDefault, apply_ite FmtState.caseStack] using h2

theorem processToken_ok (o : FormatOptions) (σ : FmtState) (tok : Token)
    (rest : List Token) (h : StateOK σ) : StateOK (processToken o σ tok rest) := by
  have hd := ddlUpdate_ok σ tok h
  unfold processToken
  by_cases c1 : tok.type = TokenType.Whitespace ∨ tok.type = TokenType.Newline
  · rw [if_pos c1]; exact h
  rw [if_neg c1]
  by_cases c2 : tok.type = TokenType.Comment ∨ tok.type = TokenType.BlockComment
  · rw [if_pos c2]; exact handleComment_ok o σ tok rest h
  rw [if_neg c2]
  by_cases c3 : tok.type = TokenType.EOF
  · rw [if_pos c3]; exact h
  rw [if_neg c3]
  by_cases c4 : tok.type = TokenType.Semicolon
  · rw [if_pos c4]; exact handleSemicolon_ok _ tok
  rw [if_neg c4]
  by_cases c5 : tok.type = TokenType.OpenParen
  · rw [if_pos c5]; exact handleOpenParen_ok o _ tok rest hd
  rw [if_neg c5]
  by_cases c6 : tok.type = TokenType.CloseParen
  · rw [if_pos c6]; exact handleCloseParen_ok o _ tok hd
  rw [if_neg c6]
  by_cases c7 : tok.type = TokenType.Keyword ∧ tok.value = "CASE".data
  · rw [if_pos c7]; exact handleCase_ok o _ tok hd
  rw [if_neg c7]
  by_cases c8 : tok.type = TokenType.Keyword ∧ tok.value = "WHEN".data ∧
      (ddlUpdate σ tok).caseStack ≠ []
  · rw [if_pos c8]; exact handleWhenElse_ok o _ tok hd
  rw [if_neg c8]
  by_cases c9 : tok.type = TokenType.Keyword ∧ tok.value = "ELSE".data ∧
      (ddlUpdate σ tok).caseStack ≠ []
  · rw [if_pos c9]; exact handleWhenElse_ok o _ tok hd
  rw [if_neg c9]
  by_cases c10 : tok.type = TokenType.Keyword ∧ tok.value = "END".data ∧
      (ddlUpdate σ tok).caseStack ≠ []
  · rw [if_pos c10]; exact handleEnd_ok o _ tok hd
  rw [if_neg c10]
  by_cases c11 : tok.type = TokenType.Keyword ∧ tok.value = "COMMENT".data ∧
      (ddlUpdate σ tok).functionContext = true
  · rw [if_pos c11]; exact handleFnComment_ok o _ tok hd
  rw [if_neg c11]
  by_cases c12 : tok.type = TokenType.Keyword ∧ CLAUSE_KEYWORDS.contains tok.value = true
  · rw [if_pos c12]; exact handleClauseKw_ok o _ tok rest hd
  rw [if_neg c12]
  by_cases c13 : tok.type = TokenType.Comma
  · rw [if_pos c13]; exact handleComma_ok o _ tok hd
  rw [if_neg c13]
  by_cases c14 : tok.type = TokenType.Dot
  · rw [if_pos c14]; exact handleDot_ok _ tok hd
  rw [if_neg c14]
  by_cases c15 : prevType (ddlUpdate σ tok) TokenType.Dot = true
  · rw [if_pos c15]; exact handleAfterDot_ok o _ tok hd
  rw [if_neg c15]
  by_cases c16 : tok.type = TokenType.DollarQuotedString
  · rw [if_pos c16]; exact handleDollarQuoted_ok o _ tok hd
  rw [if_neg c16]
  exact handleDefault_ok o _ tok hd

theorem formatLoop_ok (o : FormatOptions) :
    ∀ (ts : List Token) (σ : FmtState), StateOK σ → StateOK (formatLoop o σ ts) := by
  intro ts
  induction ts with
  | nil => intro σ h; exact h
  | cons t rest ih =>
    intro σ h
    simp only [formatLoop]
    split
    · exact h
    · exact ih _ (processToken_ok o σ t rest h)

/-- C9: the engine's indent level is a non-negative integer throughout:
the invariant (indent level and every CASE-stack snapshot non-negative)
holds in the initial state, is preserved by every token handler — including
the close-paren decrement, the END snapshot restore and the semicolon
reset — and therefore holds after any run of the format loop, for any
input token stream (balanced or not). -/
theorem indentLevel_nonneg :
    (∀ (o : FormatOptions) (σ : FmtState) (tok : Token) (rest : List Token),
       StateOK σ → StateOK (processToken o σ tok rest)) ∧
    (∀ (o : FormatOptions) (σ : FmtState) (ts : List Token),
       StateOK σ → StateOK (formatLoop o σ ts)) ∧
    StateOK initState :=
  ⟨processToken_ok, fun o σ ts h => formatLoop_ok o ts σ h, initState_ok⟩

/-- C9 (witness): the invariant statement applied to the initial state and
a close paren with no matching open paren. -/
theorem indentLevel_nonneg_witness :
    StateOK (processToken DEFAULT_OPTIONS initState
      ⟨TokenType.CloseParen, ")".data, none⟩ []) :=
  indentLevel_nonneg.1 DEFAULT_OPTIONS initState
    ⟨TokenType.CloseParen, ")".data, none⟩ [] indentLevel_nonneg.2.2

/-! ## Keyword-merge characterization (claim C6) -/

/-- The claim's description of matching one suffix phrase: before each part
any run of whitespace/newline tokens is skipped, and each part must be a
Keyword token with exactly that value; the third argument is the stream
after the last consumed keyword. -/
inductive SuffixMatch : List (List Char) → List Token → List Token → Prop where
  | nil (ts : List Token) : SuffixMatch [] ts ts
  | cons (p : List Char) (ps : List (List Char)) (pre : List Token) (kw : Token)
      (ts rest2 : List Token) :
      (∀ x ∈ pre, isWsTok x = true) → kw.type = TokenType.Keyword →
      kw.value = p → SuffixMatch ps ts rest2 →
      SuffixMatch (p :: ps) (pre ++ kw :: ts) rest2

/-- A suffix phrase fits at this point of the stream. -/
def Fits (s : String) (rest : List Token) : Prop :=
  ∃ r, SuffixMatch (splitOnSpace s.data) rest r

theorem keyword_not_ws {t : Token} (h : t.type = TokenType.Keyword) :
    isWsTok t = false := by
  simp [isWsTok, h]

theorem dropWhile_ws_decomp {pre : List Token} {kw : Token} {ts : List Token}
    (hpre : ∀ x ∈ pre, isWsTok x = true) (hkw : isWsTok kw = false) :
    (pre ++ kw :: ts).dropWhile isWsTok = kw :: ts := by
  induction pre with
  | nil =>
    simp only [List.nil_append]
    exact List.dropWhile_cons_of_neg (by simp [hkw])
  | cons a t ih =>
    have ha := hpre a (List.mem_cons_self _ _)
    rw [List.cons_append, List.dropWhile_cons_of_pos ha]
    exact ih (fun x hx => hpre x (List.mem_cons_of_mem _ hx))

theorem matchParts_some_iff :
    ∀ {ps : List (List Char)} {ts r : List Token},
      matchParts ps ts = some r ↔ SuffixMatch ps ts r := by
  intro ps
  induction ps with
  | nil =>
    intro ts r
    constructor
    · intro h
      simp only [matchParts, Option.some.injEq] at h
      rw [← h]
      exact SuffixMatch.nil ts
    · intro h
      cases h
      rfl
  | cons p ps ih =>
    intro ts r
    constructor
    · intro h
      simp only [matchParts] at h
      cases hdw : ts.dropWhile isWsTok with
      | nil => rw [hdw] at h; simp at h
      | cons kw r2 =>
        rw [hdw] at h
        by_cases hc : kw.type = TokenType.Keyword ∧ kw.value = p
        · simp only [hc, and_self, if_true] at h
          have hts : ts = ts.takeWhile isWsTok ++ kw :: r2 := by
            conv_lhs => rw [← List.takeWhile_append_dropWhile (p := isWsTok) (l := ts)]
            rw [hdw]
          rw [hts]
          exact SuffixMatch.cons p ps (ts.takeWhile isWsTok) kw r2 r
            (fun x hx => List.mem_takeWhile_imp hx) hc.1 hc.2 (ih.mp h)
        · simp [hc] at h
    · intro h
      cases h with
      | cons p ps pre kw ts2 rest2 hpre hkw hval hrec =>
        simp only [matchParts]
        rw [dropWhile_ws_decomp hpre (keyword_not_ws hkw)]
        simp only [hkw, hval, and_self, if_true]
        exact ih.mpr hrec

theorem not_fits_iff {s : String} {rest : List Token} :
    matchParts (splitOnSpace s.data) rest = none ↔ ¬ Fits s rest := by
  constructor
  · rintro hm ⟨r, hr⟩
    rw [← matchParts_some_iff] at hr
    rw [hm] at hr
    exact absurd hr (by simp)
  · intro hnf
    cases hm : matchParts (splitOnSpace s.data) rest with
    | none => rfl
    | some r => exact absurd ⟨r, matchParts_some_iff.mp hm⟩ hnf

theorem trySuffixes_first_fit {t : Token} :
    ∀ (pre : List String) {s : String} {post : List String} {rest r : List Token},
      (∀ s' ∈ pre, matchParts (splitOnSpace s'.data) rest = none) →
      matchParts (splitOnSpace s.data) rest = some r →
      trySuffixes t (pre ++ s :: post) rest = some (compoundToken t s, r) := by
  intro pre
  induction pre with
  | nil =>
    intro s post rest r _ hm
    simp only [List.nil_append, trySuffixes, hm]
  | cons a as ih =>
    intro s post rest r hpre hm
    have ha := hpre a (List.mem_cons_self _ _)
    simp only [List.cons_append, trySuffixes, ha]
    exact ih (fun x hx => hpre x (List.mem_cons_of_mem _ hx)) hm

theorem trySuffixes_none_of_all {t : Token} :
    ∀ (sfx : List String) {rest : List Token},
      (∀ s ∈ sfx, matchParts (splitOnSpace s.data) rest = none) →
      trySuffixes t sfx rest = none := by
  intro sfx
  induction sfx with
  | nil => intro rest _; rfl
  | cons a as ih =>
    intro rest hall
    have ha := hall a (List.mem_cons_self _ _)
    simp only [trySuffixes, ha]
    exact ih (fun x hx => hall x (List.mem_cons_of_mem _ hx))

/-- C6: characterization of the keyword-merge pass.  (i) When the current
token is a keyword with a merge-table entry, the earlier suffixes of the
entry do not fit, and a suffix phrase `s` matches the following stream
(Keyword parts only, whitespace/newline tokens skipped, per `SuffixMatch`),
then the keyword and the consumed suffix tokens are replaced by the single
compound Keyword token `value = keyword ++ ' ' ++ s` and merging continues
right after the last consumed keyword.  (ii) If no suffix of the entry
fits, the keyword passes through unchanged and merging continues on the
unaltered remainder.  (iii) Tokens that are not keywords with a table entry
pass through unchanged. -/
theorem mergeClauseKeywords_characterization :
    (∀ (t : Token) (rest : List Token) (pre : List String) (s : String)
       (post : List String) (rest2 : List Token),
       t.type = TokenType.Keyword →
       mergeables t.value = some (pre ++ s :: post) →
       (∀ s' ∈ pre, ¬ Fits s' rest) →
       SuffixMatch (splitOnSpace s.data) rest rest2 →
       mergeClauseKeywords (t :: rest) =
         compoundToken t s :: mergeClauseKeywords rest2) ∧
    (∀ (t : Token) (rest : List Token) (sfx : List String),
       t.type = TokenType.Keyword → mergeables t.value = some sfx →
       (∀ s ∈ sfx, ¬ Fits s rest) →
       mergeClauseKeywords (t :: rest) = t :: mergeClauseKeywords rest) ∧
    (∀ (t : Token) (rest : List Token),
       t.type ≠ TokenType.Keyword ∨ mergeables t.value = none →
       mergeClauseKeywords (t :: rest) = t :: mergeClauseKeywords rest) := by
  refine ⟨?_, ?_, ?_⟩
  · intro t rest pre s post rest2 hk hme hpre hsm
    have hm := matchParts_some_iff.mpr hsm
    have hts := @trySuffixes_first_fit t pre s post rest rest2
      (fun x hx => not_fits_iff.mpr (hpre x hx)) hm
    exact mergeClauseKeywords_cons_hit hk hme hts
  · intro t rest sfx hk hme hall
    have hts := @trySuffixes_none_of_all t sfx rest
      (fun x hx => not_fits_iff.mpr (hall x hx))
    exact mergeClauseKeywords_cons_miss hk hme hts
  · intro t rest hor
    rcases hor with hk | hme
    · exact mergeClauseKeywords_cons_notKw hk
    · exact mergeClauseKeywords_cons_noEntry hme

/-- C6 (witness): the characterization applied to the concrete stream
`GROUP`, whitespace, `BY`, which merges to the single compound token
`GROUP BY`. -/
theorem mergeClauseKeywords_characterization_witness :
    mergeClauseKeywords
      [⟨TokenType.Keyword, "GROUP".data, some "group".data⟩,
       ⟨TokenType.Whitespace, " ".data, none⟩,
       ⟨TokenType.Keyword, "BY".data, some "by".data⟩] =
      [⟨TokenType.Keyword, "GROUP BY".data, some "group".data⟩] := by
  have h := mergeClauseKeywords_characterization.1
    ⟨TokenType.Keyword, "GROUP".data, some "group".data⟩
    [⟨TokenType.Whitespace, " ".data, none⟩,
     ⟨TokenType.Keyword, "BY".data, some "by".data⟩]
    [] "BY" [] [] rfl rfl (by intro x hx; simp at hx)
    (SuffixMatch.cons "BY".data [] [⟨TokenType.Whitespace, " ".data, none⟩]
      ⟨TokenType.Keyword, "BY".data, some "by".data⟩ [] []
      (by intro x hx; simp at hx; rw [hx]; rfl) rfl rfl (SuffixMatch.nil []))
  rw [h]
  rfl

/-! ## Idempotence failure (claim C4) -/

/-- C4: formatting is not idempotent.  On the well-formed statement
`CREATE VIEW v LANGUAGE YAML AS source: t` (an unquoted LANGUAGE body, the
construct the merge pass exists for, with the body starting on the `AS`
line), the merged verbatim body token keeps its leading whitespace and the
dollar-quoted rendering branch prepends another space, so every pass adds
one more space after `AS`: `format(format(x)) ≠ format(x)` with default
options, while the spec states they are equal. -/
theorem format_not_idempotent_on_unquoted_language_body :
    formatDatabricksSQL "CREATE VIEW v LANGUAGE YAML AS source: t".data
        DEFAULT_OPTIONS =
      "CREATE VIEW v\nLANGUAGE YAML AS  source: t\n".data ∧
    formatDatabricksSQL "CREATE VIEW v\nLANGUAGE YAML AS  source: t\n".data
        DEFAULT_OPTIONS =
      "CREATE VIEW v\nLANGUAGE YAML AS   source: t\n".data ∧
    formatDatabricksSQL
        (formatDatabricksSQL "CREATE VIEW v LANGUAGE YAML AS source: t".data
          DEFAULT_OPTIONS) DEFAULT_OPTIONS ≠
      formatDatabricksSQL "CREATE VIEW v LANGUAGE YAML AS source: t".data
        DEFAULT_OPTIONS := by
  have e1 : formatDatabricksSQL "CREATE VIEW v LANGUAGE YAML AS source: t".data
      DEFAULT_OPTIONS = "CREATE VIEW v\nLANGUAGE YAML AS  source: t\n".data := by rfl
  have e2 : formatDatabricksSQL "CREATE VIEW v\nLANGUAGE YAML AS  source: t\n".data
      DEFAULT_OPTIONS = "CREATE VIEW v\nLANGUAGE YAML AS   source: t\n".data := by rfl
  refine ⟨e1, e2, ?_⟩
  rw [e1, e2]
  decide

end DbxFmt
